import Mathlib

/-!
A shallow embedding of `asio::detail::reactor_timer_queue` from
`src/asio/include/asio/detail/reactor_timer_queue.hpp`.

Conventions of the embedding:

* Heap-allocated `timer_base` objects are identified by allocation ids
  (`Nat`), handed out by a monotone counter `nextId`; the store is an
  association list from id to the timer's mutable fields.  Pointer equality
  between live objects is id equality, and the raw pointer comparison
  `heap_[child] < heap_[child + 1]` in `down_heap` is modelled as comparison
  of allocation ids (one admissible address layout: a monotone allocator
  that never reuses freed storage).
* `Time` is instantiated with `Int`; the `Comparator` template parameter is
  an explicit function argument `cmp : Int → Int → Bool` (the default
  instantiation `std::less<Time>` is `ltInt` below).
* The external `hash_map<void*, timer_base*>` (declared out of scope by the
  spec) is modelled from the spec: a map from token to chain head with
  `find` / `insert` / `erase`, realised as an association list.  Tokens
  (`void*`) are modelled as `Nat`.
* Every array access `heap_[i]` and every dereference of a stored pointer
  goes through `Option`: an out-of-bounds index or a dangling id yields
  `none`, i.e. the run has no defined result (C++ undefined behaviour).
* Callback invocations (`do_operation` / `do_cancel`) and enqueues are
  recorded in an event log so that temporal claims can be stated; handlers
  themselves carry no behaviour in the base model (an extended model
  `dispatch_timers_ex` lets `do_operation` raise).
-/

/-- The mutable fields of a `timer_base` object: deadline, cancellation
token, the intrusive chain links `next_` / `prev_` (ids, `none` for null),
and the cached heap slot `heap_index_`. -/
structure Timer where
  time : Int
  token : Nat
  next : Option Nat
  prev : Option Nat
  heap_index : Nat
deriving DecidableEq

/-- Observable events of a run: an enqueue, a `do_operation` callback
(fire) or a `do_cancel` callback, each tagged with the entry's id and
deadline. -/
inductive Ev where
  | enq (id : Nat) (time : Int) (token : Nat)
  | fire (id : Nat) (time : Int)
  | canc (id : Nat) (time : Int)
deriving DecidableEq

/-- The id an event talks about. -/
def evId : Ev → Nat
  | .enq i _ _ => i
  | .fire i _ => i
  | .canc i _ => i

/-- Whether an event is a terminal callback (fire or cancel). -/
def isTerm : Ev → Bool
  | .enq _ _ _ => false
  | .fire _ _ => true
  | .canc _ _ => true

/-- The store of live (allocated, not yet deleted) timer objects. -/
abbrev Store := List (Nat × Timer)

/-- The whole queue state: live objects, the token hash, the heap array of
ids, the allocation counter and the event log. -/
structure QState where
  store : Store
  timers : List (Nat × Nat)
  heap : List Nat
  nextId : Nat
  events : List Ev
deriving DecidableEq

/-- The empty queue. -/
def initQ : QState := ⟨[], [], [], 0, []⟩

/-- The default comparator `std::less<Time>`. -/
def ltInt (a b : Int) : Bool := decide (a < b)

/-- Lookup in an association list (the first binding wins, as in a hash map
with unique keys). -/
def lookupA {β : Type} : List (Nat × β) → Nat → Option β
  | [], _ => none
  | kv :: rest, k => if kv.1 = k then some kv.2 else lookupA rest k

/-- Overwrite the value bound to a present key; absent keys are untouched. -/
def setA {β : Type} (l : List (Nat × β)) (k : Nat) (v : β) : List (Nat × β) :=
  l.map fun kv => if kv.1 = k then (kv.1, v) else kv

/-- Erase the (first) binding of a key. -/
def eraseA {β : Type} : List (Nat × β) → Nat → List (Nat × β)
  | [], _ => []
  | kv :: rest, k => if kv.1 = k then rest else kv :: eraseA rest k

/-- Write through a stored pointer: update the timer bound to `k`; if `k`
is dangling the write is undefined behaviour (`none`). -/
def updA (st : Store) (k : Nat) (f : Timer → Timer) : Option Store :=
  match lookupA st k with
  | none => none
  | some _ => some (st.map fun kv => if kv.1 = k then (kv.1, f kv.2) else kv)

/-- `heap_index_` is initialised to `~0` (64-bit `size_t`); it is always
overwritten before being read. -/
def sentinelIdx : Nat := 2 ^ 64 - 1

/-- Write through an optional pointer: a null pointer writes nothing (the
source guards each neighbour update with `if (t->prev_)` / `if (t->next_)`);
a dangling one is undefined behaviour. -/
def updO (st : Store) (k : Option Nat) (f : Timer → Timer) : Option Store :=
  match k with
  | none => some st
  | some kk => updA st kk f

/-- `swap_heap(index1, index2)`: swap two heap slots and re-home the two
cached `heap_index_` fields (source lines 220–227). -/
def swap_heap (st : Store) (h : List Nat) (i j : Nat) : Option (Store × List Nat) :=
  match h[i]?, h[j]? with
  | some a, some b =>
    let h' := (h.set i b).set j a
    match updA st b (fun t => { t with heap_index := i }) with
    | none => none
    | some st1 =>
      match updA st1 a (fun t => { t with heap_index := j }) with
      | none => none
      | some st2 => some (st2, h')
  | _, _ => none

/-- `up_heap(index)` (source lines 191–199): sift up, comparing with the
entry at `index / 2` (the source's parent computation, kept as written).
The fuel only bounds the loop; `index + 1` steps always suffice because the
index halves. -/
def up_heap (cmp : Int → Int → Bool) :
    Nat → Store → List Nat → Nat → Option (Store × List Nat)
  | 0, _, _, _ => none
  | fuel + 1, st, h, index =>
    if index > 0 then
      match (h[index]?).bind (lookupA st), (h[index / 2]?).bind (lookupA st) with
      | some a, some b =>
        if cmp a.time b.time then
          match swap_heap st h index (index / 2) with
          | none => none
          | some (st', h') => up_heap cmp fuel st' h' (index / 2)
        else some (st, h)
      | _, _ => none
    else some (st, h)

/-- The child-selection step of `down_heap` (source line 208–210), exactly
as written: `(child + 1 == heap_.size() || heap_[child] < heap_[child + 1])
? child : child + 1`, where `<` compares the stored pointers themselves
(allocation ids), not the deadlines. -/
def min_child (h : List Nat) (child : Nat) : Nat :=
  if child + 1 = h.length then child
  else
    match h[child]?, h[child + 1]? with
    | some a, some b => if a < b then child else child + 1
    | _, _ => child

/-- `down_heap(index)` (source lines 202–217): sift down towards the child
selected by `min_child`, stopping as soon as the comparator puts the
current entry before it. -/
def down_heap (cmp : Int → Int → Bool) :
    Nat → Store → List Nat → Nat → Option (Store × List Nat)
  | 0, _, _, _ => none
  | fuel + 1, st, h, index =>
    let child := index * 2 + 1
    if child < h.length then
      let mc := min_child h child
      match (h[index]?).bind (lookupA st), (h[mc]?).bind (lookupA st) with
      | some a, some b =>
        if cmp a.time b.time then some (st, h)
        else
          match swap_heap st h index mc with
          | none => none
          | some (st', h') => down_heap cmp fuel st' h' mc
      | _, _ => none
    else some (st, h)

/-- The heap half of `remove_timer` (source lines 232–247): swap the
target with the last slot, pop, then sift the displaced entry up or down,
choosing by a comparison against the entry at `heap_index / 2`. -/
def remove_heap (cmp : Int → Int → Bool) (st : Store) (heap : List Nat) (t : Timer) :
    Option (Store × List Nat) :=
  let hi := t.heap_index
  if heap.length > 1 then
    match swap_heap st heap hi (heap.length - 1) with
    | none => none
    | some (st1, h1) =>
      let h2 := h1.dropLast
      if hi > 0 then
        match (h2[hi / 2]?).bind (lookupA st1) with
        | none => none
        | some p =>
          if cmp t.time p.time then up_heap cmp (hi + 1) st1 h2 hi
          else down_heap cmp (h2.length + 1) st1 h2 hi
      else down_heap cmp (h2.length + 1) st1 h2 hi
  else some (st, [])

/-- The hash half of `remove_timer` (source lines 249–262): advance the
bucket head past `t`, splice `t` out of the doubly-linked chain through
the guarded neighbour writes, and erase the bucket if the chain became
empty. -/
def remove_hash (s : QState) (tid : Nat) (t : Timer) (st2 : Store) (h3 : List Nat) :
    Option QState :=
  match lookupA s.timers t.token with
  | none => some { s with store := st2, heap := h3 }
  | some headId =>
    let bucketVal : Option Nat := if headId = tid then t.next else some headId
    match updO st2 t.prev (fun u => { u with next := t.next }) with
    | none => none
    | some st3 =>
      match updO st3 t.next (fun u => { u with prev := t.prev }) with
      | none => none
      | some st4 =>
        let tm' :=
          match bucketVal with
          | none => eraseA s.timers t.token
          | some v => setA s.timers t.token v
        some { s with store := st4, heap := h3, timers := tm' }

/-- `remove_timer(t)` (source lines 230–263): unlink `t` from the heap,
then from the hash chain.  The timer object itself is not freed here. -/
def remove_timer (cmp : Int → Int → Bool) (s : QState) (tid : Nat) : Option QState :=
  match lookupA s.store tid with
  | none => none
  | some t =>
    match remove_heap cmp s.store s.heap t with
    | none => none
    | some (st2, h3) => remove_hash s tid t st2 h3

/-- `enqueue_timer(time, handler, token)` (source lines 47–69): allocate a
timer, insert it into the hash (prepending to the chain when the token is
already present), append it to the heap, sift up, and report whether the
new timer ended at the heap root.  The allocation is logged as an event. -/
def enqueue_timer (cmp : Int → Int → Bool) (s : QState) (time : Int) (token : Nat) :
    Option (QState × Bool) :=
  let id := s.nextId
  let t0 : Timer := ⟨time, token, none, none, sentinelIdx⟩
  let hashed : Option (Store × List (Nat × Nat)) :=
    match lookupA s.timers token with
    | none => some ((id, t0) :: s.store, (token, id) :: s.timers)
    | some head =>
      match updA s.store head (fun u => { u with prev := some id }) with
      | none => none
      | some st' => some ((id, { t0 with next := some head }) :: st', setA s.timers token id)
  match hashed with
  | none => none
  | some (st1, tm1) =>
    match updA st1 id (fun u => { u with heap_index := s.heap.length }) with
    | none => none
    | some st2 =>
      let h1 := s.heap ++ [id]
      match up_heap cmp h1.length st2 h1 (h1.length - 1) with
      | none => none
      | some (st3, h2) =>
        some ({ store := st3, timers := tm1, heap := h2, nextId := s.nextId + 1,
                events := s.events ++ [Ev.enq id time token] }, decide (h2.head? = some id))

/-- `empty()` (source lines 72–75). -/
def emptyQ (s : QState) : Bool := s.heap.isEmpty

/-- `get_earliest_time(time)` (source lines 78–81): the unchecked read
`heap_[0]->time_`; on an empty heap the access is out of bounds (`none`). -/
def get_earliest_time (s : QState) : Option Int :=
  (s.heap.head?).bind fun id => (lookupA s.store id).map Timer.time

/-- Fire an entry: log the `do_operation` callback, then `delete` the
object. -/
def fireAndDelete (s : QState) (tid : Nat) (time : Int) : QState :=
  { s with events := s.events ++ [Ev.fire tid time], store := eraseA s.store tid }

/-- Cancel an entry: log the `do_cancel` callback, then `delete` the
object. -/
def cancAndDelete (s : QState) (tid : Nat) (time : Int) : QState :=
  { s with events := s.events ++ [Ev.canc tid time], store := eraseA s.store tid }

/-- The loop of `dispatch_timers` (source lines 84–94): while the heap is
non-empty and the comparator puts the root's deadline before `now`, remove
the root, invoke `do_operation`, delete.  Each iteration shrinks the heap,
so `heap.length + 1` fuel always suffices. -/
def dispatchLoop (cmp : Int → Int → Bool) :
    Nat → QState → Int → Option QState
  | 0, _, _ => none
  | fuel + 1, s, now =>
    match s.heap.head? with
    | none => some s
    | some rootId =>
      match lookupA s.store rootId with
      | none => none
      | some t =>
        if cmp t.time now then
          match remove_timer cmp s rootId with
          | none => none
          | some s1 => dispatchLoop cmp fuel (fireAndDelete s1 rootId t.time) now
        else some s

/-- `dispatch_timers(time)` (source lines 84–94). -/
def dispatch_timers (cmp : Int → Int → Bool) (s : QState) (now : Int) : Option QState :=
  dispatchLoop cmp (s.heap.length + 1) s now

/-- The loop of `cancel_timer` (source lines 104–112): walk the chain via
the `next_` pointer captured before each removal, removing, cancelling and
deleting each entry.  Each step deletes one live object, so
`store.length + 1` fuel suffices for any uncorrupted chain; running out of
fuel models a corrupted (cyclic) chain, which in C++ would not terminate. -/
def cancelChain (cmp : Int → Int → Bool) :
    Nat → QState → Option Nat → Option QState
  | _, s, none => some s
  | 0, _, some _ => none
  | fuel + 1, s, some tid =>
    match lookupA s.store tid with
    | none => none
    | some t =>
      match remove_timer cmp s tid with
      | none => none
      | some s1 => cancelChain cmp fuel (cancAndDelete s1 tid t.time) t.next

/-- `cancel_timer(token)` (source lines 98–114): look the token up in the
hash; if absent do nothing, otherwise cancel the whole chain. -/
def cancel_timer (cmp : Int → Int → Bool) (s : QState) (token : Nat) : Option QState :=
  match lookupA s.timers token with
  | none => some s
  | some head => cancelChain cmp (s.store.length + 1) s (some head)

/-- One public operation of the queue. -/
inductive Op where
  | enq (time : Int) (token : Nat)
  | dispatch (now : Int)
  | cancel (token : Nat)
deriving DecidableEq

/-- Apply one operation (the Boolean result of `enqueue_timer` is dropped
here; `enqRets` below keeps it). -/
def stepQ (cmp : Int → Int → Bool) (s : QState) : Op → Option QState
  | .enq t tk => (enqueue_timer cmp s t tk).map Prod.fst
  | .dispatch now => dispatch_timers cmp s now
  | .cancel tk => cancel_timer cmp s tk

/-- Run a sequence of operations from the empty queue; `none` means some
operation hit undefined behaviour. -/
def runQ (cmp : Int → Int → Bool) (ops : List Op) : Option QState :=
  ops.foldlM (stepQ cmp) initQ

/-- Run a sequence of enqueues from the empty queue, collecting the Boolean
results ("this timer is now the earliest"). -/
def enqRets (cmp : Int → Int → Bool) : List (Int × Nat) → Option (QState × List Bool) :=
  let step : QState × List Bool → Int × Nat → Option (QState × List Bool) :=
    fun p a => (enqueue_timer cmp p.1 a.1 a.2).map fun q => (q.1, p.2 ++ [q.2])
  fun l => l.foldlM step (initQ, [])

/-- The extended dispatch loop in which `do_operation` may raise:
`throws id` tells whether the handler stored in entry `id` throws.  On a
throw the `delete` on source line 92 is skipped and the exception
propagates out of `dispatch_timers` (second component `some id`). -/
def dispatchLoopEx (cmp : Int → Int → Bool) (throws : Nat → Bool) :
    Nat → QState → Int → Option (QState × Option Nat)
  | 0, _, _ => none
  | fuel + 1, s, now =>
    match s.heap.head? with
    | none => some (s, none)
    | some rootId =>
      match lookupA s.store rootId with
      | none => none
      | some t =>
        if cmp t.time now then
          match remove_timer cmp s rootId with
          | none => none
          | some s1 =>
            let s2 := { s1 with events := s1.events ++ [Ev.fire rootId t.time] }
            if throws rootId then some (s2, some rootId)
            else dispatchLoopEx cmp throws fuel { s2 with store := eraseA s2.store rootId } now
        else some (s, none)

/-- `dispatch_timers` with possibly-raising handlers. -/
def dispatch_timers_ex (cmp : Int → Int → Bool) (throws : Nat → Bool)
    (s : QState) (now : Int) : Option (QState × Option Nat) :=
  dispatchLoopEx cmp throws (s.heap.length + 1) s now

/-- The ids of all live objects. -/
def storeKeys (s : QState) : List Nat := s.store.map Prod.fst

/-- Chronological list of enqueued ids, read off the event log. -/
def enqIds (evs : List Ev) : List Nat :=
  evs.filterMap fun e => match e with | .enq i _ _ => some i | _ => none

/-- The entries a token's chain must hold: the live entries carrying that
token, most recently enqueued first (the LIFO chain order). -/
def spine (s : QState) (tk : Nat) : List Nat :=
  (enqIds s.events).reverse.filter fun id =>
    decide ((lookupA s.store id).map Timer.token = some tk)

/-- How many terminal callbacks (fire or cancel) were invoked on `id`. -/
def termCount (evs : List Ev) (id : Nat) : Nat :=
  evs.countP fun e => isTerm e && evId e == id

/-- How many `do_operation` callbacks were invoked on `id`. -/
def fireCount (evs : List Ev) (id : Nat) : Nat :=
  evs.countP fun e => match e with | .fire i _ => i == id | _ => false

/-- How many `do_cancel` callbacks were invoked on `id`. -/
def cancCount (evs : List Ev) (id : Nat) : Nat :=
  evs.countP fun e => match e with | .canc i _ => i == id | _ => false

/-- How many times `id` was enqueued. -/
def enqCount (evs : List Ev) (id : Nat) : Nat := (enqIds evs).count id

/-- The deadlines in heap order (dangling slots read as 0; under the queue
invariant every slot is live). -/
def heapTimes (s : QState) : List Int :=
  s.heap.map fun id => ((lookupA s.store id).map Timer.time).getD 0

/-- The deadlines passed to `do_operation`, in invocation order. -/
def fireTimes (evs : List Ev) : List Int :=
  evs.filterMap fun e => match e with | .fire _ t => some t | _ => none

/-- The claim's heap property over a comparator: every non-root slot `i`
sorts after its parent at `(i - 1) / 2`. -/
def heapPropC (cmp : Int → Int → Bool) (s : QState) : Prop :=
  ∀ i ∈ List.range s.heap.length, i ≠ 0 →
    cmp (((s.heap[(i - 1) / 2]?).bind (fun id => (lookupA s.store id).map Timer.time)).getD 0)
        (((s.heap[i]?).bind (fun id => (lookupA s.store id).map Timer.time)).getD 0) = true

/-- A doubly-linked chain: starting from stored `prev` pointer `p`, the
list `l` is exactly linked through the live objects' `prev_` / `next_`
fields (the last entry's `next_` is null). -/
def linked (st : Store) : Option Nat → List Nat → Prop
  | _, [] => True
  | p, id :: rest =>
    match lookupA st id with
    | none => False
    | some t => t.prev = p ∧ t.next = rest.head? ∧ linked st (some id) rest

/-- Decidability of `linked`, by recursion on the list. -/
def linkedDec (st : Store) : (p : Option Nat) → (l : List Nat) → Decidable (linked st p l)
  | _, [] => isTrue trivial
  | p, id :: rest =>
    match h : lookupA st id with
    | none => isFalse (fun hc => by simp only [linked, h] at hc)
    | some t =>
      letI : Decidable (linked st (some id) rest) := linkedDec st (some id) rest
      decidable_of_iff (t.prev = p ∧ t.next = rest.head? ∧ linked st (some id) rest)
        (by simp only [linked, h])

instance (st : Store) (p : Option Nat) (l : List Nat) : Decidable (linked st p l) :=
  linkedDec st p l

/-- Follow a chain of `next_` pointers for at most `fuel` steps (the
concrete traversal `cancel_timer` performs). -/
def chainD (st : Store) : Nat → Option Nat → List Nat
  | _, none => []
  | 0, some _ => []
  | fuel + 1, some id =>
    match lookupA st id with
    | none => []
    | some t => id :: chainD st fuel t.next

/-- The pointer a chain segment's last element must hold in `next_`: the
head of the continuation `Y`, or `nxt` when the continuation is empty. -/
def contHead (Y : List Nat) (nxt : Option Nat) : Option Nat :=
  match Y with
  | [] => nxt
  | y :: _ => some y

/-- A doubly-linked chain segment: starting with stored `prev_` pointer
`p`, the ids of `l` are linked in order, and the last one's `next_` is
`nxt`. -/
def linkedSeg (st : Store) : Option Nat → List Nat → Option Nat → Prop
  | _, [], _ => True
  | p, id :: rest, nxt =>
    match lookupA st id with
    | none => False
    | some t => t.prev = p ∧ t.next = contHead rest nxt ∧ linkedSeg st (some id) rest nxt

/-- The `prev_` pointer the element after a segment `X` must hold: the last
element of `X`, or the incoming pointer `p` when `X` is empty. -/
def endPrev (p : Option Nat) (X : List Nat) : Option Nat :=
  match X.getLast? with
  | none => p
  | some x => some x

/-- The queue invariant tying the three structures together:
store keys and heap slots are duplicate-free and coincide; every slot's
occupant caches its own index; each hashed token's chain is exactly its
`spine` (live entries, LIFO), correctly doubly linked and headed by the
bucket; every live entry's token is hashed; the event log shows exactly one
enqueue per allocated id, at most one terminal callback, and an entry is
live precisely until its terminal callback. -/
def INV (s : QState) : Prop :=
  (storeKeys s).Nodup
  ∧ s.heap.Nodup
  ∧ (∀ id ∈ s.heap, id ∈ storeKeys s)
  ∧ (∀ id ∈ storeKeys s, id ∈ s.heap)
  ∧ (∀ i ∈ List.range s.heap.length,
      (s.heap[i]?).bind (fun id => (lookupA s.store id).map Timer.heap_index) = some i)
  ∧ (s.timers.map Prod.fst).Nodup
  ∧ (∀ p ∈ s.timers,
      spine s p.1 ≠ [] ∧ (spine s p.1).head? = some p.2 ∧ linked s.store none (spine s p.1))
  ∧ (∀ id ∈ storeKeys s, ∀ t, lookupA s.store id = some t → t.token ∈ s.timers.map Prod.fst)
  ∧ (∀ id ∈ List.range s.nextId,
      enqCount s.events id = 1 ∧ termCount s.events id ≤ 1
        ∧ (termCount s.events id = 0 ↔ id ∈ storeKeys s))
  ∧ (∀ e ∈ s.events, evId e < s.nextId)
  ∧ (∀ id ∈ storeKeys s, id < s.nextId)

instance (s : QState) : Decidable (INV s) := by
  unfold INV
  infer_instance

instance (cmp : Int → Int → Bool) (s : QState) : Decidable (heapPropC cmp s) := by
  unfold heapPropC
  infer_instance

/-- The fields of a timer that the chain structure and the deadlines
depend on — everything except the cached heap slot. -/
def shape (t : Timer) : Option Nat × Option Nat × Nat × Int :=
  (t.prev, t.next, t.token, t.time)

/-- Two stores that agree on every object up to the cached heap slot. -/
def sameShape (st st' : Store) : Prop :=
  ∀ id, (lookupA st id).map shape = (lookupA st' id).map shape

/-- The heap-side part of the invariant, for the intermediate
store/heap pairs threaded through the sift routines. -/
def HeapOK (st : Store) (h : List Nat) : Prop :=
  h.Nodup ∧ (∀ id ∈ h, (lookupA st id).isSome = true)
    ∧ ∀ n ∈ List.range h.length,
        (h[n]?).bind (fun id => (lookupA st id).map Timer.heap_index) = some n

/-- The transposition of two indices, as a function on positions. -/
def swapIdx (i j n : Nat) : Nat := if n = j then i else if n = i then j else n

/-- What the sift routines preserve: the set of live objects, every field
except cached heap slots, and the heap's length and membership. -/
def SiftRel (st : Store) (h : List Nat) (st' : Store) (h' : List Nat) : Prop :=
  st'.map Prod.fst = st.map Prod.fst
  ∧ sameShape st st'
  ∧ h'.length = h.length
  ∧ (∀ x, x ∈ h' ↔ x ∈ h)

/-- Concrete one-entry queue: the state after `enqueue_timer 5` (token 0)
on the empty queue; allocation id 0. -/
def oneTimerQ : QState :=
  ⟨[(0, ⟨5, 0, none, none, 0⟩)], [(0, 0)], [0], 1, [Ev.enq 0 5 0]⟩

/-- The queue after `dispatch_timers 10` fires the single entry of
`oneTimerQ`. -/
def oneTimerFiredQ : QState := ⟨[], [], [], 1, [Ev.enq 0 5 0, Ev.fire 0 5]⟩

/-- The queue `dispatch_timers_ex` leaves behind when the handler of the
single entry of `oneTimerQ` throws: unlinked from heap and index but
still allocated. -/
def oneTimerLeakQ : QState :=
  ⟨[(0, ⟨5, 0, none, none, 0⟩)], [], [], 1, [Ev.enq 0 5 0, Ev.fire 0 5]⟩

/-- Two same-token entries (token 7): ids 0 (deadline 3) and 1
(deadline 4); the chain head is the most recently inserted, id 1. -/
def twoTokenQ : QState :=
  ⟨[(1, ⟨4, 7, some 0, none, 1⟩), (0, ⟨3, 7, none, some 1, 0⟩)],
    [(7, 1)], [0, 1], 2, [Ev.enq 0 3 7, Ev.enq 1 4 7]⟩

/-- `twoTokenQ` after `cancel_timer 7`: both entries cancelled in LIFO
order (id 1 first). -/
def twoTokenCancelledQ : QState :=
  ⟨[], [], [], 2, [Ev.enq 0 3 7, Ev.enq 1 4 7, Ev.canc 1 4, Ev.canc 0 3]⟩

theorem lookupA_cons {β : Type} (kv : Nat × β) (rest : List (Nat × β)) (k : Nat) :
    lookupA (kv :: rest) k = if kv.1 = k then some kv.2 else lookupA rest k := rfl

theorem lookupA_eq_none_iff {β : Type} (l : List (Nat × β)) (k : Nat) :
    lookupA l k = none ↔ k ∉ l.map Prod.fst := by
  induction l with
  | nil => simp [lookupA]
  | cons kv rest ih =>
    by_cases h : kv.1 = k
    · simp [lookupA_cons, h]
    · rw [lookupA_cons, if_neg h, ih]
      simp only [List.map_cons, List.mem_cons]
      constructor
      · intro hn hmem
        rcases hmem with hh | hh
        · exact h hh.symm
        · exact hn hh
      · intro hn hh
        exact hn (Or.inr hh)

theorem lookupA_isSome_iff {β : Type} (l : List (Nat × β)) (k : Nat) :
    (lookupA l k).isSome = true ↔ k ∈ l.map Prod.fst := by
  rw [Option.isSome_iff_ne_none, ne_eq, lookupA_eq_none_iff, not_not]

theorem lookupA_mapIf {β : Type} (l : List (Nat × β)) (k j : Nat) (f : β → β) :
    lookupA (l.map fun kv => if kv.1 = k then (kv.1, f kv.2) else kv) j
      = if j = k then (lookupA l k).map f else lookupA l j := by
  induction l with
  | nil => by_cases hj : j = k <;> simp [lookupA, hj]
  | cons kv rest ih =>
    simp only [List.map_cons, lookupA_cons]
    by_cases hk : kv.1 = k
    · by_cases hj : j = k
      · subst hj
        simp [hk]
      · have h2 : ¬ kv.1 = j := fun hh => hj (by rw [← hh, hk])
        have h3 : ¬ k = j := fun hh => hj hh.symm
        simp [hk, h2, hj, h3, ih]
    · by_cases hj : kv.1 = j
      · have hjk : ¬ j = k := fun hh => hk (by rw [hj, hh])
        simp [hk, hj, hjk]
      · simp [hk, hj, ih]

theorem keys_setA {β : Type} (l : List (Nat × β)) (k : Nat) (v : β) :
    (setA l k v).map Prod.fst = l.map Prod.fst := by
  unfold setA
  rw [List.map_map]
  refine List.map_congr_left fun kv _ => ?_
  by_cases hk : kv.1 = k <;> simp [hk]

theorem lookupA_setA {β : Type} (l : List (Nat × β)) (k j : Nat) (v : β) :
    lookupA (setA l k v) j
      = if j = k then (lookupA l k).map (fun _ => v) else lookupA l j := by
  unfold setA
  exact lookupA_mapIf l k j fun _ => v

theorem keys_eraseA {β : Type} (l : List (Nat × β)) (k : Nat) :
    (eraseA l k).map Prod.fst = (l.map Prod.fst).erase k := by
  induction l with
  | nil => rfl
  | cons kv rest ih =>
    by_cases h : kv.1 = k
    · simp only [eraseA, if_pos h, List.map_cons]
      rw [← h, List.erase_cons_head]
    · simp only [eraseA, if_neg h, List.map_cons, ih]
      rw [List.erase_cons_tail (by simpa using h)]

theorem lookupA_eraseA_ne {β : Type} (l : List (Nat × β)) (k j : Nat) (h : j ≠ k) :
    lookupA (eraseA l k) j = lookupA l j := by
  induction l with
  | nil => rfl
  | cons kv rest ih =>
    by_cases hk : kv.1 = k
    · have hne : ¬ kv.1 = j := fun hh => h (by rw [← hh, hk])
      simp only [eraseA, if_pos hk]
      rw [lookupA_cons, if_neg hne]
    · simp only [eraseA, if_neg hk]
      rw [lookupA_cons, lookupA_cons, ih]

theorem lookupA_eraseA_self {β : Type} (l : List (Nat × β)) (k : Nat)
    (nd : (l.map Prod.fst).Nodup) : lookupA (eraseA l k) k = none := by
  induction l with
  | nil => rfl
  | cons kv rest ih =>
    simp only [List.map_cons, List.nodup_cons] at nd
    by_cases hk : kv.1 = k
    · simp only [eraseA, if_pos hk]
      rw [lookupA_eq_none_iff]
      exact hk ▸ nd.1
    · simp only [eraseA, if_neg hk]
      rw [lookupA_cons, if_neg hk, ih nd.2]

theorem updA_eq_some {st : Store} {k : Nat} {f : Timer → Timer} {st' : Store}
    (h : updA st k f = some st') :
    st' = st.map fun kv => if kv.1 = k then (kv.1, f kv.2) else kv := by
  unfold updA at h
  cases hl : lookupA st k with
  | none => rw [hl] at h; exact absurd h (by simp)
  | some v => rw [hl] at h; exact (Option.some_inj.mp h).symm

theorem updA_isSome_iff (st : Store) (k : Nat) (f : Timer → Timer) :
    (updA st k f).isSome = true ↔ (lookupA st k).isSome = true := by
  unfold updA
  cases lookupA st k <;> simp

theorem keys_updA {st : Store} {k : Nat} {f : Timer → Timer} {st' : Store}
    (h : updA st k f = some st') : st'.map Prod.fst = st.map Prod.fst := by
  rcases updA_eq_some h with rfl
  rw [List.map_map]
  refine List.map_congr_left fun kv _ => ?_
  by_cases hk : kv.1 = k <;> simp [hk]

theorem lookupA_updA {st : Store} {k : Nat} {f : Timer → Timer} {st' : Store}
    (h : updA st k f = some st') (j : Nat) :
    lookupA st' j = if j = k then (lookupA st k).map f else lookupA st j := by
  rcases updA_eq_some h with rfl
  exact lookupA_mapIf st k j f

theorem sameShape_refl (st : Store) : sameShape st st := fun _ => rfl

theorem sameShape_trans {s1 s2 s3 : Store} (h1 : sameShape s1 s2) (h2 : sameShape s2 s3) :
    sameShape s1 s3 := fun id => (h1 id).trans (h2 id)

theorem SiftRel_refl (st : Store) (h : List Nat) : SiftRel st h st h :=
  ⟨rfl, sameShape_refl st, rfl, fun _ => Iff.rfl⟩

theorem SiftRel_trans {s1 s2 s3 : Store} {h1 h2 h3 : List Nat}
    (a : SiftRel s1 h1 s2 h2) (b : SiftRel s2 h2 s3 h3) : SiftRel s1 h1 s3 h3 :=
  ⟨b.1.trans a.1, sameShape_trans a.2.1 b.2.1, b.2.2.1.trans a.2.2.1,
    fun x => (b.2.2.2 x).trans (a.2.2.2 x)⟩

theorem nodup_getElem?_inj {l : List Nat} (nd : l.Nodup) {m n : Nat} (hn : n < l.length)
    (he : l[m]? = l[n]?) : m = n := by
  have hm : m < l.length := by
    by_contra hc
    rw [List.getElem?_eq_none (Nat.le_of_not_lt hc)] at he
    have := List.getElem?_eq_none_iff.mp he.symm
    omega
  rcases Nat.lt_trichotomy m n with hlt | heq | hgt
  · exact absurd he (List.nodup_iff_getElem?_ne_getElem?.mp nd m n hlt hn)
  · exact heq
  · exact absurd he.symm (List.nodup_iff_getElem?_ne_getElem?.mp nd n m hgt hm)

theorem getElem?_swapL {h : List Nat} {i j a b : Nat}
    (hi : h[i]? = some a) (hj : h[j]? = some b) (n : Nat) :
    ((h.set i b).set j a)[n]? = if n = j then some a else if n = i then some b else h[n]? := by
  have hil : i < h.length := (List.getElem?_eq_some_iff.mp hi).1
  have hjl : j < h.length := (List.getElem?_eq_some_iff.mp hj).1
  by_cases hnj : n = j
  · subst hnj
    rw [if_pos rfl, List.getElem?_set_self (by simpa using hjl)]
  · rw [if_neg hnj, List.getElem?_set_ne (fun hh => hnj hh.symm)]
    by_cases hni : n = i
    · subst hni
      rw [if_pos rfl, List.getElem?_set_self hil]
    · rw [if_neg hni, List.getElem?_set_ne (fun hh => hni hh.symm)]

theorem swapIdx_invol (i j n : Nat) : swapIdx i j (swapIdx i j n) = n := by
  simp only [swapIdx]
  split_ifs <;> omega

theorem getElem?_swapL_orig {h : List Nat} {i j a b : Nat}
    (hi : h[i]? = some a) (hj : h[j]? = some b) (n : Nat) :
    ((h.set i b).set j a)[n]? = h[swapIdx i j n]? := by
  rw [getElem?_swapL hi hj]
  unfold swapIdx
  by_cases hnj : n = j
  · rw [if_pos hnj, if_pos hnj, hi]
  · rw [if_neg hnj, if_neg hnj]
    by_cases hni : n = i
    · rw [if_pos hni, if_pos hni, hj]
    · rw [if_neg hni, if_neg hni]

theorem swapIdx_lt {i j n len : Nat} (hil : i < len) (hjl : j < len) (hn : n < len) :
    swapIdx i j n < len := by
  unfold swapIdx
  split_ifs <;> assumption

theorem mem_swapL {h : List Nat} {i j a b : Nat}
    (hi : h[i]? = some a) (hj : h[j]? = some b) (x : Nat) :
    x ∈ (h.set i b).set j a ↔ x ∈ h := by
  constructor
  · intro hx
    rcases List.mem_iff_getElem?.mp hx with ⟨n, hn⟩
    rw [getElem?_swapL_orig hi hj] at hn
    exact List.getElem?_mem hn
  · intro hx
    rcases List.mem_iff_getElem?.mp hx with ⟨n, hn⟩
    refine List.mem_iff_getElem?.mpr ⟨swapIdx i j n, ?_⟩
    rw [getElem?_swapL_orig hi hj, swapIdx_invol]
    exact hn

theorem nodup_swapL {h : List Nat} {i j a b : Nat} (nd : h.Nodup)
    (hi : h[i]? = some a) (hj : h[j]? = some b) :
    ((h.set i b).set j a).Nodup := by
  have hil : i < h.length := (List.getElem?_eq_some_iff.mp hi).1
  have hjl : j < h.length := (List.getElem?_eq_some_iff.mp hj).1
  rw [List.nodup_iff_getElem?_ne_getElem?]
  intro p q hpq hql heq
  rw [getElem?_swapL_orig hi hj, getElem?_swapL_orig hi hj] at heq
  have hql0 : q < h.length := by simpa using hql
  have hql' : swapIdx i j q < h.length := swapIdx_lt hil hjl hql0
  have hσ := nodup_getElem?_inj nd hql' heq
  have : p = q := by
    have := congrArg (swapIdx i j) hσ
    rwa [swapIdx_invol, swapIdx_invol] at this
  omega

theorem swap_heap_ok {st : Store} {h : List Nat} {i j a b : Nat} {ta tb : Timer}
    (hok : HeapOK st h)
    (hi : h[i]? = some a) (hj : h[j]? = some b)
    (ha : lookupA st a = some ta) (hb : lookupA st b = some tb) :
    ∃ st', swap_heap st h i j = some (st', (h.set i b).set j a)
      ∧ HeapOK st' ((h.set i b).set j a)
      ∧ SiftRel st h st' ((h.set i b).set j a)
      ∧ ∀ x, lookupA st' x
          = if x = a then some { ta with heap_index := j }
            else if x = b then some { tb with heap_index := i }
            else lookupA st x := by
  obtain ⟨nd, hlive, hcache⟩ := hok
  -- perform the two updates
  obtain ⟨st1, h1⟩ : ∃ st1, updA st b (fun t => { t with heap_index := i }) = some st1 := by
    refine Option.isSome_iff_exists.mp ((updA_isSome_iff _ _ _).mpr ?_)
    rw [hb]
    rfl
  have l1 : ∀ y, lookupA st1 y
      = if y = b then some { tb with heap_index := i } else lookupA st y := by
    intro y
    rw [lookupA_updA h1 y]
    by_cases hy : y = b
    · rw [if_pos hy, if_pos hy, hb]
      rfl
    · rw [if_neg hy, if_neg hy]
  obtain ⟨st2, h2⟩ : ∃ st2, updA st1 a (fun t => { t with heap_index := j }) = some st2 := by
    refine Option.isSome_iff_exists.mp ((updA_isSome_iff _ _ _).mpr ?_)
    rw [l1 a]
    by_cases hab : a = b
    · rw [if_pos hab]
      rfl
    · rw [if_neg hab, ha]
      rfl
  have l2 : ∀ y, lookupA st2 y
      = if y = a then some { ta with heap_index := j }
        else if y = b then some { tb with heap_index := i }
        else lookupA st y := by
    intro y
    rw [lookupA_updA h2 y]
    by_cases hya : y = a
    · rw [if_pos hya, if_pos hya, l1 a]
      by_cases hab : a = b
      · rw [if_pos hab]
        have htab : ta = tb := by
          rw [hab, hb] at ha
          exact (Option.some_inj.mp ha).symm
        rw [htab]
        rfl
      · rw [if_neg hab, ha]
        rfl
    · rw [if_neg hya, l1 y, if_neg hya]
  have hkeys : st2.map Prod.fst = st.map Prod.fst := (keys_updA h2).trans (keys_updA h1)
  refine ⟨st2, ?_, ?_, ?_, l2⟩
  · simp only [swap_heap, hi, hj, h1, h2]
  · refine ⟨nodup_swapL nd hi hj, ?_, ?_⟩
    · intro id hid
      rw [mem_swapL hi hj] at hid
      rcases Option.isSome_iff_exists.mp (hlive id hid) with ⟨u, hu⟩
      rw [l2 id]
      split_ifs <;> simp [hu]
    · intro n hn
      have hn' : n < h.length := by simpa using List.mem_range.mp hn
      rw [getElem?_swapL hi hj]
      by_cases hnj : n = j
      · rw [if_pos hnj]
        show (lookupA st2 a).map Timer.heap_index = some n
        rw [l2 a, if_pos rfl, hnj]
        rfl
      · rw [if_neg hnj]
        by_cases hni : n = i
        · rw [if_pos hni]
          show (lookupA st2 b).map Timer.heap_index = some n
          rw [l2 b]
          by_cases hab : b = a
          · exfalso
            have hij : i = j := by
              refine nodup_getElem?_inj nd (List.getElem?_eq_some_iff.mp hj).1 ?_
              rw [hi, hj, hab]
            exact hnj (hni.trans hij)
          · rw [if_neg hab, if_pos rfl, hni]
            rfl
        · rw [if_neg hni]
          have hsome : (h[n]?).isSome = true := by
            rw [Option.isSome_iff_ne_none, ne_eq, List.getElem?_eq_none_iff]
            omega
          obtain ⟨x, hx⟩ := Option.isSome_iff_exists.mp hsome
          rw [hx]
          have hxa : x ≠ a := by
            intro hh
            refine hni (nodup_getElem?_inj nd (List.getElem?_eq_some_iff.mp hi).1 ?_)
            rw [hx, hi, hh]
          have hxb : x ≠ b := by
            intro hh
            refine hnj (nodup_getElem?_inj nd (List.getElem?_eq_some_iff.mp hj).1 ?_)
            rw [hx, hj, hh]
          show (lookupA st2 x).map Timer.heap_index = some n
          rw [l2 x, if_neg hxa, if_neg hxb]
          have hc := hcache n (List.mem_range.mpr hn')
          rw [hx] at hc
          exact hc
  · refine ⟨hkeys, ?_, by simp, mem_swapL hi hj⟩
    intro x
    rw [l2 x]
    by_cases h1' : x = a
    · rw [if_pos h1', h1', ha]
      rfl
    · rw [if_neg h1']
      by_cases h2' : x = b
      · rw [if_pos h2', h2', hb]
        rfl
      · rw [if_neg h2']

theorem up_heap_pres (cmp : Int → Int → Bool) :
    ∀ (fuel : Nat) (st : Store) (h : List Nat) (index : Nat) (st' : Store) (h' : List Nat),
      up_heap cmp fuel st h index = some (st', h') → HeapOK st h →
      HeapOK st' h' ∧ SiftRel st h st' h' := by
  intro fuel
  induction fuel with
  | zero =>
    intro st h index st' h' he _
    simp [up_heap] at he
  | succ fuel ih =>
    intro st h index st' h' he hok
    simp only [up_heap] at he
    split at he
    · split at he
      · rename_i hidx ta tb hA hB
        by_cases hcmp : cmp ta.time tb.time = true
        · rw [if_pos hcmp] at he
          split at he
          · cases he
          · rename_i st1 h1 hsw
            obtain ⟨aid, haid, hta⟩ := Option.bind_eq_some.mp hA
            obtain ⟨bid, hbid, htb⟩ := Option.bind_eq_some.mp hB
            obtain ⟨st2, hsw2, hok1, hrel1, _⟩ := swap_heap_ok hok haid hbid hta htb
            rw [hsw2] at hsw
            injection hsw with hp
            injection hp with e1 e2
            subst e1
            subst e2
            obtain ⟨hok2, hrel2⟩ := ih _ _ _ _ _ he hok1
            exact ⟨hok2, SiftRel_trans hrel1 hrel2⟩
        · rw [if_neg hcmp] at he
          cases he
          exact ⟨hok, SiftRel_refl st h⟩
      · cases he
    · cases he
      exact ⟨hok, SiftRel_refl st h⟩

theorem min_child_cases {h : List Nat} {child : Nat} (hc : child < h.length) :
    min_child h child = child ∨ (min_child h child = child + 1 ∧ child + 1 < h.length) := by
  unfold min_child
  by_cases h1 : child + 1 = h.length
  · rw [if_pos h1]
    exact Or.inl rfl
  · rw [if_neg h1]
    have hlt : child + 1 < h.length := by omega
    cases hA : h[child]? with
    | none =>
      rw [List.getElem?_eq_none_iff] at hA
      omega
    | some a =>
      cases hB : h[child + 1]? with
      | none =>
        rw [List.getElem?_eq_none_iff] at hB
        omega
      | some b =>
        show (if a < b then child else child + 1) = child
          ∨ ((if a < b then child else child + 1) = child + 1 ∧ child + 1 < h.length)
        by_cases hab : a < b
        · rw [if_pos hab]
          exact Or.inl rfl
        · rw [if_neg hab]
          exact Or.inr ⟨rfl, hlt⟩

theorem down_heap_pres (cmp : Int → Int → Bool) :
    ∀ (fuel : Nat) (st : Store) (h : List Nat) (index : Nat) (st' : Store) (h' : List Nat),
      down_heap cmp fuel st h index = some (st', h') → HeapOK st h →
      HeapOK st' h' ∧ SiftRel st h st' h' := by
  intro fuel
  induction fuel with
  | zero =>
    intro st h index st' h' he _
    simp [down_heap] at he
  | succ fuel ih =>
    intro st h index st' h' he hok
    simp only [down_heap] at he
    split at he
    · split at he
      · rename_i hidx ta tb hA hB
        by_cases hcmp : cmp ta.time tb.time = true
        · rw [if_pos hcmp] at he
          cases he
          exact ⟨hok, SiftRel_refl st h⟩
        · rw [if_neg hcmp] at he
          split at he
          · cases he
          · rename_i st1 h1 hsw
            obtain ⟨aid, haid, hta⟩ := Option.bind_eq_some.mp hA
            obtain ⟨bid, hbid, htb⟩ := Option.bind_eq_some.mp hB
            obtain ⟨st2, hsw2, hok1, hrel1, _⟩ := swap_heap_ok hok haid hbid hta htb
            rw [hsw2] at hsw
            injection hsw with hp
            injection hp with e1 e2
            subst e1
            subst e2
            obtain ⟨hok2, hrel2⟩ := ih _ _ _ _ _ he hok1
            exact ⟨hok2, SiftRel_trans hrel1 hrel2⟩
      · cases he
    · cases he
      exact ⟨hok, SiftRel_refl st h⟩

theorem contHead_none (Y : List Nat) : contHead Y none = Y.head? := by
  cases Y <;> rfl

theorem contHead_append (X Y : List Nat) (nxt : Option Nat) :
    contHead (X ++ Y) nxt = contHead X (contHead Y nxt) := by
  cases X <;> rfl

theorem endPrev_cons (p : Option Nat) (x : Nat) (X : List Nat) :
    endPrev p (x :: X) = endPrev (some x) X := by
  cases X with
  | nil => rfl
  | cons y ys =>
    show endPrev p (x :: y :: ys) = endPrev (some x) (y :: ys)
    unfold endPrev
    rw [List.getLast?_cons_cons]
    cases h : (y :: ys).getLast? with
    | none => exact absurd h (by simp)
    | some z => rfl

theorem linked_iff_seg (st : Store) (p : Option Nat) (l : List Nat) :
    linked st p l ↔ linkedSeg st p l none := by
  induction l generalizing p with
  | nil => exact Iff.rfl
  | cons id rest ih =>
    unfold linked linkedSeg
    cases lookupA st id with
    | none => exact Iff.rfl
    | some t =>
      rw [ih, contHead_none]

theorem linkedSeg_append (st : Store) (X Y : List Nat) (p nxt : Option Nat) :
    linkedSeg st p (X ++ Y) nxt ↔
      linkedSeg st p X (contHead Y nxt) ∧ linkedSeg st (endPrev p X) Y nxt := by
  induction X generalizing p with
  | nil =>
    show linkedSeg st p Y nxt ↔ True ∧ linkedSeg st (endPrev p []) Y nxt
    unfold endPrev
    simp [List.getLast?]
  | cons x X ih =>
    simp only [List.cons_append, linkedSeg]
    cases hlk : lookupA st x with
    | none => simp
    | some t =>
      show (t.prev = p ∧ t.next = contHead (X ++ Y) nxt ∧ linkedSeg st (some x) (X ++ Y) nxt)
          ↔ (t.prev = p ∧ t.next = contHead X (contHead Y nxt)
              ∧ linkedSeg st (some x) X (contHead Y nxt))
            ∧ linkedSeg st (endPrev p (x :: X)) Y nxt
      rw [contHead_append, ih, endPrev_cons]
      constructor
      · rintro ⟨a, b, c, d⟩
        exact ⟨⟨a, b, c⟩, d⟩
      · rintro ⟨⟨a, b, c⟩, d⟩
        exact ⟨a, b, c, d⟩

theorem linkedSeg_congr_on {st st' : Store} {l : List Nat}
    (hc : ∀ id ∈ l, lookupA st' id = lookupA st id) :
    ∀ p nxt, linkedSeg st p l nxt → linkedSeg st' p l nxt := by
  induction l with
  | nil => intro p nxt _; trivial
  | cons id rest ih =>
    intro p nxt hl
    unfold linkedSeg at hl ⊢
    rw [hc id (List.mem_cons_self id rest)]
    cases hlk : lookupA st id with
    | none => rw [hlk] at hl; exact hl
    | some t =>
      rw [hlk] at hl
      exact ⟨hl.1, hl.2.1, ih (fun x hx => hc x (List.mem_cons_of_mem _ hx)) _ _ hl.2.2⟩

theorem linked_congr_on {st st' : Store} {l : List Nat} {p : Option Nat}
    (hc : ∀ id ∈ l, lookupA st' id = lookupA st id) (hl : linked st p l) :
    linked st' p l := by
  rw [linked_iff_seg] at hl ⊢
  exact linkedSeg_congr_on hc _ _ hl

theorem chainD_of_linked {st : Store} :
    ∀ (l : List Nat) (p : Option Nat) (fuel : Nat), linked st p l → l.length ≤ fuel →
      chainD st fuel l.head? = l := by
  intro l
  induction l with
  | nil =>
    intro p fuel _ _
    cases fuel <;> rfl
  | cons id rest ih =>
    intro p fuel hl hf
    unfold linked at hl
    cases hlk : lookupA st id with
    | none =>
      rw [hlk] at hl
      exact hl.elim
    | some t =>
      rw [hlk] at hl
      obtain ⟨_, hnext, hrest⟩ := hl
      cases fuel with
      | zero =>
        simp only [List.length_cons] at hf
        omega
      | succ f =>
        show chainD st (f + 1) (some id) = id :: rest
        unfold chainD
        rw [hlk]
        show id :: chainD st f t.next = id :: rest
        rw [hnext, ih (some id) f hrest (by simp only [List.length_cons] at hf; omega)]

theorem filter_erase_of_ne {l : List Nat} {p q : Nat → Bool} {tid : Nat} (nd : l.Nodup)
    (hne : ∀ x, x ≠ tid → q x = p x) (htid : q tid = false) :
    l.filter q = (l.filter p).erase tid := by
  induction l with
  | nil => rfl
  | cons a l ih =>
    rw [List.nodup_cons] at nd
    by_cases ha : a = tid
    · subst ha
      have hfq : l.filter q = l.filter p :=
        List.filter_congr fun x hx => hne x (fun hh => nd.1 (hh ▸ hx))
      rw [List.filter_cons, List.filter_cons, htid, if_neg (by simp)]
      cases hp : p a
      · rw [if_neg (by simp), hfq]
        have : a ∉ l.filter p := fun hc => nd.1 (List.mem_of_mem_filter hc)
        exact (List.erase_of_not_mem this).symm
      · rw [if_pos (by simp), hfq, List.erase_cons_head]
    · have hqa : q a = p a := hne a ha
      rw [List.filter_cons, List.filter_cons, hqa]
      cases hp : p a
      · rw [if_neg (by simp), if_neg (by simp)]
        exact ih nd.2
      · rw [if_pos (by simp), if_pos (by simp)]
        rw [List.erase_cons_tail (by simpa using ha), ih nd.2]

theorem lookupA_mem {β : Type} {l : List (Nat × β)} {k : Nat} {v : β}
    (h : lookupA l k = some v) : (k, v) ∈ l := by
  induction l with
  | nil => cases h
  | cons kv rest ih =>
    rw [lookupA_cons] at h
    by_cases hk : kv.1 = k
    · rw [if_pos hk] at h
      refine List.mem_cons.mpr (Or.inl ?_)
      rw [← hk, ← Option.some_inj.mp h]
    · rw [if_neg hk] at h
      exact List.mem_cons_of_mem _ (ih h)

theorem mem_lookupA {β : Type} {l : List (Nat × β)} (nd : (l.map Prod.fst).Nodup)
    {k : Nat} {v : β} (h : (k, v) ∈ l) : lookupA l k = some v := by
  induction l with
  | nil => cases h
  | cons kv rest ih =>
    rw [List.map_cons, List.nodup_cons] at nd
    rcases List.mem_cons.mp h with heq | hmem
    · rw [lookupA_cons, ← heq]
      rw [if_pos rfl]
    · rw [lookupA_cons]
      by_cases hk : kv.1 = k
      · exfalso
        refine nd.1 ?_
        rw [hk]
        exact List.mem_map_of_mem Prod.fst hmem
      · rw [if_neg hk]
        exact ih nd.2 hmem

theorem sameShape_lookup {st st' : Store} (hs : sameShape st st') {id : Nat} {t : Timer}
    (h : lookupA st id = some t) :
    ∃ t', lookupA st' id = some t' ∧ t'.prev = t.prev ∧ t'.next = t.next
      ∧ t'.token = t.token ∧ t'.time = t.time := by
  have := hs id
  rw [h] at this
  cases hl : lookupA st' id with
  | none => rw [hl] at this; cases this
  | some t' =>
    rw [hl] at this
    have hsh : shape t = shape t' := Option.some_inj.mp this
    unfold shape at hsh
    refine ⟨t', rfl, ?_, ?_, ?_, ?_⟩ <;>
      simp only [Prod.mk.injEq] at hsh
    · exact hsh.1.symm
    · exact hsh.2.1.symm
    · exact hsh.2.2.1.symm
    · exact hsh.2.2.2.symm

theorem sameShape_none {st st' : Store} (hs : sameShape st st') {id : Nat}
    (h : lookupA st id = none) : lookupA st' id = none := by
  have := hs id
  rw [h] at this
  cases hl : lookupA st' id with
  | none => rfl
  | some t' => rw [hl] at this; cases this

theorem sameShape_token {st st' : Store} (hs : sameShape st st') (id : Nat) :
    (lookupA st' id).map Timer.token = (lookupA st id).map Timer.token := by
  cases h : lookupA st id with
  | none => rw [sameShape_none hs h]
  | some t =>
    obtain ⟨t', hl, _, _, htk, _⟩ := sameShape_lookup hs h
    rw [hl]
    simp [htk]

theorem sameShape_time {st st' : Store} (hs : sameShape st st') (id : Nat) :
    (lookupA st' id).map Timer.time = (lookupA st id).map Timer.time := by
  cases h : lookupA st id with
  | none => rw [sameShape_none hs h]
  | some t =>
    obtain ⟨t', hl, _, _, _, htm⟩ := sameShape_lookup hs h
    rw [hl]
    simp [htm]

theorem linkedSeg_of_sameShape {st st' : Store} (hs : sameShape st st') :
    ∀ {l : List Nat} {p nxt : Option Nat}, linkedSeg st p l nxt → linkedSeg st' p l nxt := by
  intro l
  induction l with
  | nil => intro p nxt _; trivial
  | cons id rest ih =>
    intro p nxt hl
    unfold linkedSeg at hl ⊢
    cases hlk : lookupA st id with
    | none => rw [hlk] at hl; exact hl.elim
    | some t =>
      rw [hlk] at hl
      obtain ⟨t', hl', hp, hn, _, _⟩ := sameShape_lookup hs hlk
      rw [hl']
      exact ⟨by rw [hp, hl.1], by rw [hn, hl.2.1], ih hl.2.2⟩

theorem linked_of_sameShape {st st' : Store} (hs : sameShape st st') {p : Option Nat}
    {l : List Nat} (hl : linked st p l) : linked st' p l := by
  rw [linked_iff_seg] at hl ⊢
  exact linkedSeg_of_sameShape hs hl

theorem enqIds_append (e1 e2 : List Ev) : enqIds (e1 ++ e2) = enqIds e1 ++ enqIds e2 :=
  List.filterMap_append e1 e2 _

theorem enqIds_single_term {e : Ev} (h : isTerm e = true) : enqIds [e] = [] := by
  cases e with
  | enq i time tk => simp [isTerm] at h
  | fire i time => rfl
  | canc i time => rfl

theorem termCount_append (e1 e2 : List Ev) (id : Nat) :
    termCount (e1 ++ e2) id = termCount e1 id + termCount e2 id :=
  List.countP_append _ _ _

theorem termCount_single {e : Ev} (h : isTerm e = true) (x : Nat) :
    termCount [e] x = if evId e = x then 1 else 0 := by
  unfold termCount
  rw [List.countP_cons]
  by_cases hx : evId e = x
  · rw [if_pos hx]
    simp [List.countP_nil, h, hx]
  · rw [if_neg hx]
    simp only [List.countP_nil, Nat.zero_add]
    have : (isTerm e && evId e == x) = false := by
      rw [h]
      simpa using hx
    simp [this]

theorem termCount_enq (i : Nat) (time : Int) (tk x : Nat) :
    termCount [Ev.enq i time tk] x = 0 := rfl

theorem enqCount_append (e1 e2 : List Ev) (id : Nat) :
    enqCount (e1 ++ e2) id = enqCount e1 id + enqCount e2 id := by
  unfold enqCount
  rw [enqIds_append, List.count_append]

theorem enqCount_term {e : Ev} (h : isTerm e = true) (x : Nat) : enqCount [e] x = 0 := by
  unfold enqCount
  rw [enqIds_single_term h]
  rfl

theorem enqCount_enq (i : Nat) (time : Int) (tk x : Nat) :
    enqCount [Ev.enq i time tk] x = if i = x then 1 else 0 := by
  unfold enqCount enqIds
  by_cases hx : i = x <;> simp [hx, List.count_cons]

theorem mem_enqIds_iff_count {evs : List Ev} {id : Nat} :
    id ∈ enqIds evs ↔ 0 < enqCount evs id := by
  unfold enqCount
  rw [List.count_pos_iff]

theorem mem_spine_iff (s : QState) (tk id : Nat) :
    id ∈ spine s tk
      ↔ id ∈ enqIds s.events ∧ (lookupA s.store id).map Timer.token = some tk := by
  unfold spine
  rw [List.mem_filter, List.mem_reverse, decide_eq_true_iff]

theorem up_heap_total (cmp : Int → Int → Bool) :
    ∀ (fuel : Nat) (st : Store) (h : List Nat) (index : Nat),
      HeapOK st h → index < h.length → index + 1 ≤ fuel →
      ∃ st' h', up_heap cmp fuel st h index = some (st', h') := by
  intro fuel
  induction fuel with
  | zero =>
    intro st h index _ _ hf
    omega
  | succ fuel ih =>
    intro st h index hok hlt hf
    by_cases hidx : index > 0
    · have hsA : (h[index]?).isSome = true := by
        rw [Option.isSome_iff_ne_none, ne_eq, List.getElem?_eq_none_iff]
        omega
      obtain ⟨aid, haid⟩ := Option.isSome_iff_exists.mp hsA
      have hsB : (h[index / 2]?).isSome = true := by
        rw [Option.isSome_iff_ne_none, ne_eq, List.getElem?_eq_none_iff]
        omega
      obtain ⟨bid, hbid⟩ := Option.isSome_iff_exists.mp hsB
      obtain ⟨ta, hta⟩ := Option.isSome_iff_exists.mp (hok.2.1 aid (List.getElem?_mem haid))
      obtain ⟨tb, htb⟩ := Option.isSome_iff_exists.mp (hok.2.1 bid (List.getElem?_mem hbid))
      have hA : (h[index]?).bind (lookupA st) = some ta := by rw [haid]; exact hta
      have hB : (h[index / 2]?).bind (lookupA st) = some tb := by rw [hbid]; exact htb
      by_cases hcmp : cmp ta.time tb.time = true
      · obtain ⟨st1, hsw, hok1, hrel1, _⟩ := swap_heap_ok hok haid hbid hta htb
        have hlen : ((h.set index bid).set (index / 2) aid).length = h.length := by simp
        obtain ⟨st', h', hrec⟩ := ih st1 _ (index / 2) hok1 (by omega) (by omega)
        refine ⟨st', h', ?_⟩
        simp only [up_heap, hA, hB, hsw]
        rw [if_pos hidx, if_pos hcmp]
        exact hrec
      · refine ⟨st, h, ?_⟩
        simp only [up_heap, hA, hB]
        rw [if_pos hidx, if_neg hcmp]
    · refine ⟨st, h, ?_⟩
      simp only [up_heap]
      rw [if_neg hidx]

theorem INV_enqIds_nodup {s : QState} (hINV : INV s) : (enqIds s.events).Nodup := by
  obtain ⟨_, _, _, _, _, _, _, _, h9, h10, _⟩ := hINV
  rw [List.nodup_iff_count_le_one]
  intro id
  by_cases hid : id < s.nextId
  · exact le_of_eq (h9 id (List.mem_range.mpr hid)).1
  · by_contra hc
    have hpos : 0 < enqCount s.events id := by
      unfold enqCount
      omega
    obtain ⟨e, hmem, hfe⟩ := List.mem_filterMap.mp (mem_enqIds_iff_count.mpr hpos)
    have := h10 e hmem
    cases e with
    | enq i time tk =>
      have : i = id := by simpa using hfe
      subst this
      exact hid (by simpa [evId] using h10 _ hmem)
    | fire i time => simp at hfe
    | canc i time => simp at hfe

theorem INV_spine_nodup {s : QState} (hINV : INV s) (tk : Nat) : (spine s tk).Nodup :=
  (List.nodup_reverse.mpr (INV_enqIds_nodup hINV)).filter _

theorem live_mem_spine {s : QState} {id : Nat} {t : Timer} (hINV : INV s)
    (ht : lookupA s.store id = some t) : id ∈ spine s t.token := by
  obtain ⟨_, _, _, _, _, _, _, _, h9, _, h11⟩ := hINV
  rw [mem_spine_iff]
  refine ⟨?_, by rw [ht]; rfl⟩
  have hks : id ∈ storeKeys s := (lookupA_isSome_iff _ _).mp (by rw [ht]; rfl)
  have hlt : id < s.nextId := h11 id hks
  rw [mem_enqIds_iff_count, (h9 id (List.mem_range.mpr hlt)).1]
  omega

theorem mem_spine_live {s : QState} {id tk : Nat} (h : id ∈ spine s tk) :
    ∃ u, lookupA s.store id = some u ∧ u.token = tk := by
  rw [mem_spine_iff] at h
  cases hl : lookupA s.store id with
  | none => rw [hl] at h; simp at h
  | some u =>
    rw [hl] at h
    exact ⟨u, rfl, by simpa using h.2⟩

/-- C1: the heap property fails on a reachable state.  Enqueue deadlines
0, 5, 2, 7 (allocation ids 0, 1, 2, 3) and dispatch at `now = 1`: firing
the root makes `down_heap` compare the children by pointer value
(`min_child`) and promote the deadline-5 child over the deadline-2 child,
leaving the heap deadlines `[5, 2, 7]`.  The entry at slot 1 (deadline 2)
sorts strictly before its parent at slot 0 (deadline 5), so the claimed
invariant `comparator(parent.deadline, self.deadline)` is violated — the
code also contradicts its own comment that the earliest timer is at the
front. -/
theorem claim1_heap_property_violated :
    (runQ ltInt [Op.enq 0 0, Op.enq 5 1, Op.enq 2 2, Op.enq 7 3, Op.dispatch 1]).map heapTimes
        = some [5, 2, 7]
    ∧ (runQ ltInt [Op.enq 0 0, Op.enq 5 1, Op.enq 2 2, Op.enq 7 3, Op.dispatch 1]).map
          (fun s => decide (heapPropC ltInt s)) = some false := by
  decide

/-- C2, counterexample: on the reachable corrupted heap `[5, 2, 7]` (see
`claim1_heap_property_violated`), `dispatch_timers 3` fires nothing even
though the pending deadline 2 satisfies `comparator(2, 3)` — so dispatch
does not fire exactly the due entries; and continuing with
`dispatch_timers 10` produces firing order `[0, 5, 2, 7]`, which is not
non-decreasing. -/
theorem claim2_counterexample :
    (runQ ltInt [Op.enq 0 0, Op.enq 5 1, Op.enq 2 2, Op.enq 7 3, Op.dispatch 1,
        Op.dispatch 3]).map (fun s => (heapTimes s, fireTimes s.events))
        = some ([5, 2, 7], [0])
    ∧ ltInt 2 3 = true
    ∧ (runQ ltInt [Op.enq 0 0, Op.enq 5 1, Op.enq 2 2, Op.enq 7 3, Op.dispatch 1,
        Op.dispatch 3, Op.dispatch 10]).map (fun s => fireTimes s.events)
        = some [0, 5, 2, 7]
    ∧ ¬ List.Pairwise (fun a b : Int => a ≤ b) [0, 5, 2, 7] := by
  decide

/-- C4, counterexample: enqueue deadline 5, then deadline 5 again.  The
pending deadlines after the second insertion are `[5, 5]`, so the second
entry has the minimum deadline, yet `enqueue_timer` returns `false` (the
comparator treats equal deadlines as not-less, so the new entry does not
reach the root). -/
theorem claim4_counterexample :
    (enqRets ltInt [(5, 0), (5, 1)]).map (fun p => (p.2, heapTimes p.1))
      = some ([true, false], [5, 5]) := by
  decide

/-- C5: the child-selection step of `down_heap` compares the stored
pointers, not the deadlines.  On the reachable heap reached after
enqueueing deadlines 0, 5, 2, 7, dispatching at `now = 1` swaps the root
out, leaving ids `[3, 2, 1]` in the array; `min_child` then selects slot 2
(deadline 5) although the comparator places slot 1's deadline 2 strictly
first, and the dispatch ends with heap deadlines `[5, 2, 7]` — the larger
child was promoted. -/
theorem claim5_pointer_tiebreak :
    (runQ ltInt [Op.enq 0 0, Op.enq 5 1, Op.enq 2 2, Op.enq 7 3]).map (fun s => s.heap)
        = some [0, 2, 1, 3]
    ∧ min_child [3, 2, 1] 1 = 2
    ∧ (runQ ltInt [Op.enq 0 0, Op.enq 5 1, Op.enq 2 2, Op.enq 7 3]).map
          (fun s => ((lookupA s.store 2).map Timer.time, (lookupA s.store 1).map Timer.time))
        = some (some 2, some 5)
    ∧ ltInt 2 5 = true
    ∧ (runQ ltInt [Op.enq 0 0, Op.enq 5 1, Op.enq 2 2, Op.enq 7 3, Op.dispatch 1]).map heapTimes
        = some [5, 2, 7] := by
  decide

/-- C7, counterexample: enqueue one timer (id 0, deadline 1) and dispatch
at `now = 5` with a handler whose `do_operation` raises.  The exception
propagates (`some 0`), and the entry has been unlinked from the heap and
the token index before the callback ran — but the skipped `delete` leaves
the object still allocated: it is leaked, not destroyed. -/
theorem claim7_counterexample :
    ((runQ ltInt [Op.enq 1 0]).bind fun s =>
        dispatch_timers_ex ltInt (fun id => id == 0) s 5).map Prod.snd = some (some 0)
    ∧ ((runQ ltInt [Op.enq 1 0]).bind fun s =>
        dispatch_timers_ex ltInt (fun id => id == 0) s 5).map (fun p => storeKeys p.1) = some [0]
    ∧ ((runQ ltInt [Op.enq 1 0]).bind fun s =>
        dispatch_timers_ex ltInt (fun id => id == 0) s 5).map (fun p => p.1.heap) = some []
    ∧ ((runQ ltInt [Op.enq 1 0]).bind fun s =>
        dispatch_timers_ex ltInt (fun id => id == 0) s 5).map (fun p => p.1.timers) = some []
    ∧ ((runQ ltInt [Op.enq 1 0]).bind fun s =>
        dispatch_timers_ex ltInt (fun id => id == 0) s 5).map (fun p => p.1.events)
      = some [Ev.enq 0 1 0, Ev.fire 0 1] := by
  decide

/-- C10: a reachable out-of-bounds heap access.  Enqueue deadlines
0, 1, 2, 3 under distinct tokens, cancel token 1 (heap becomes
`[0, 3, 2]`), then cancel token 2: `remove_timer` removes the last slot
(index 2), pops, and — because the entry at `heap_index / 2 = 1` has
deadline 3 > 2 — calls `up_heap(2)` on a heap of size 2, whose loop reads
`heap_[2]` out of bounds.  The model returns `none` (undefined behaviour)
for the full run while the prefix is well defined. -/
theorem claim10_oob_access :
    (runQ ltInt [Op.enq 0 0, Op.enq 1 1, Op.enq 2 2, Op.enq 3 3, Op.cancel 1]).map heapTimes
        = some [0, 3, 2]
    ∧ runQ ltInt [Op.enq 0 0, Op.enq 1 1, Op.enq 2 2, Op.enq 3 3, Op.cancel 1, Op.cancel 2]
        = none := by
  decide

theorem enqueue_pres (cmp : Int → Int → Bool) (s : QState) (time : Int) (tk : Nat)
    (hINV : INV s) :
    ∃ s' b, enqueue_timer cmp s time tk = some (s', b) ∧ INV s' := by
  obtain ⟨h1, h2, h3, h4, h5, h6, h7, h8, h9, h10, h11⟩ := hINV
  have hfresh_store : lookupA s.store s.nextId = none := by
    rw [lookupA_eq_none_iff]
    intro hc
    exact absurd (h11 s.nextId hc) (by omega)
  have hfresh_heap : s.nextId ∉ s.heap := fun hc =>
    absurd (h11 s.nextId (h3 s.nextId hc)) (by omega)
  have henq_lt : ∀ x ∈ enqIds s.events, x < s.nextId := by
    intro x hx
    obtain ⟨e, hmem, hfe⟩ := List.mem_filterMap.mp hx
    cases e with
    | enq i ti tko =>
      have hi : i = x := by simpa using hfe
      have := h10 _ hmem
      simp only [evId] at this
      omega
    | fire i ti => simp at hfe
    | canc i ti => simp at hfe
  have hfresh_enq : s.nextId ∉ enqIds s.events := fun hc =>
    absurd (henq_lt _ hc) (by omega)
  have htc0 : termCount s.events s.nextId = 0 := by
    by_contra hc
    have hpos : 0 < termCount s.events s.nextId := by omega
    unfold termCount at hpos
    obtain ⟨e, hmem, hpe⟩ := List.countP_pos_iff.mp hpos
    rw [Bool.and_eq_true, beq_iff_eq] at hpe
    obtain ⟨hpe1, hpe2⟩ := hpe
    have := h10 e hmem
    omega
  have henqc0 : enqCount s.events s.nextId = 0 := by
    by_contra hc
    exact hfresh_enq (mem_enqIds_iff_count.mpr (by omega))
  have hINVc : INV s := ⟨h1, h2, h3, h4, h5, h6, h7, h8, h9, h10, h11⟩
  by_cases hbucket : lookupA s.timers tk = none
  · -- the token is not yet hashed
    have hspine_tk_nil : spine s tk = [] := by
      cases hsp : spine s tk with
      | nil => rfl
      | cons x xs =>
        exfalso
        have hx : x ∈ spine s tk := by
          rw [hsp]
          exact List.mem_cons_self x xs
        obtain ⟨u, hu, hutk⟩ := mem_spine_live hx
        have hcov := h8 x ((lookupA_isSome_iff _ _).mp (by rw [hu]; rfl)) u hu
        rw [hutk] at hcov
        exact absurd hcov (by rwa [← lookupA_eq_none_iff])
    have hlook1 : ∀ x,
        lookupA ((s.nextId, (⟨time, tk, none, none, sentinelIdx⟩ : Timer)) :: s.store) x
          = if s.nextId = x then some (⟨time, tk, none, none, sentinelIdx⟩ : Timer)
            else lookupA s.store x := fun x => lookupA_cons _ _ _
    obtain ⟨st2, hupd⟩ : ∃ st2,
        updA ((s.nextId, (⟨time, tk, none, none, sentinelIdx⟩ : Timer)) :: s.store) s.nextId
          (fun u => { u with heap_index := s.heap.length }) = some st2 := by
      refine Option.isSome_iff_exists.mp ((updA_isSome_iff _ _ _).mpr ?_)
      rw [hlook1, if_pos rfl]
      rfl
    have hlook2 : ∀ x, lookupA st2 x
        = if x = s.nextId then some (⟨time, tk, none, none, s.heap.length⟩ : Timer)
          else lookupA s.store x := by
      intro x
      rw [lookupA_updA hupd x]
      by_cases hx : x = s.nextId
      · rw [if_pos hx, if_pos hx, hlook1, if_pos rfl]
        rfl
      · rw [if_neg hx, if_neg hx, hlook1, if_neg (fun hh => hx hh.symm)]
    have hkeys2 : st2.map Prod.fst = s.nextId :: s.store.map Prod.fst := by
      rw [keys_updA hupd]
      rfl
    have hok2 : HeapOK st2 (s.heap ++ [s.nextId]) := by
      refine ⟨?_, ?_, ?_⟩
      · rw [List.nodup_append]
        exact ⟨h2, List.nodup_singleton _, by
          intro x hx hx1
          rw [List.mem_singleton] at hx1
          exact hfresh_heap (hx1 ▸ hx)⟩
      · intro x hx
        rcases List.mem_append.mp hx with hx | hx
        · have hxne : ¬ x = s.nextId := fun hh =>
            hfresh_heap (hh ▸ hx)
          rw [hlook2, if_neg hxne, lookupA_isSome_iff]
          exact h3 x hx
        · rw [List.mem_singleton] at hx
          rw [hlook2, if_pos hx]
          rfl
      · intro n hn
        rw [List.mem_range, List.length_append, List.length_singleton] at hn
        by_cases hnl : n < s.heap.length
        · rw [List.getElem?_append_left hnl]
          have hold := h5 n (List.mem_range.mpr hnl)
          obtain ⟨x, hx⟩ := Option.isSome_iff_exists.mp
            (by rw [Option.isSome_iff_ne_none, ne_eq, List.getElem?_eq_none_iff]; omega :
              (s.heap[n]?).isSome = true)
          rw [hx]
          rw [hx] at hold
          have hxne : ¬ x = s.nextId := fun hh =>
            hfresh_heap (hh ▸ List.getElem?_mem hx)
          show (lookupA st2 x).map Timer.heap_index = some n
          rw [hlook2, if_neg hxne]
          exact hold
        · have hn' : n = s.heap.length := by omega
          rw [hn', List.getElem?_concat_length]
          show (lookupA st2 s.nextId).map Timer.heap_index = some s.heap.length
          rw [hlook2, if_pos rfl]
          rfl
    obtain ⟨st3, h2', hup⟩ := up_heap_total cmp (s.heap ++ [s.nextId]).length st2
      (s.heap ++ [s.nextId]) ((s.heap ++ [s.nextId]).length - 1) hok2
      (by simp) (by simp)
    obtain ⟨hok3, hrel⟩ := up_heap_pres cmp _ _ _ _ _ _ hup hok2
    have hkeys3 : st3.map Prod.fst = s.nextId :: s.store.map Prod.fst := hrel.1.trans hkeys2
    have hshape23 : sameShape st2 st3 := hrel.2.1
    have hmem2' : ∀ x, x ∈ h2' ↔ x ∈ s.heap ∨ x = s.nextId := by
      intro x
      rw [hrel.2.2.2 x, List.mem_append, List.mem_singleton]
    have htok3 : ∀ x, (lookupA st3 x).map Timer.token
        = if x = s.nextId then some tk else (lookupA s.store x).map Timer.token := by
      intro x
      rw [sameShape_token hshape23 x, hlook2]
      by_cases hx : x = s.nextId
      · rw [if_pos hx, if_pos hx]
        rfl
      · rw [if_neg hx, if_neg hx]
    have henq : enqueue_timer cmp s time tk
        = some (⟨st3, (tk, s.nextId) :: s.timers, h2', s.nextId + 1,
                 s.events ++ [Ev.enq s.nextId time tk]⟩,
                decide (h2'.head? = some s.nextId)) := by
      simp only [enqueue_timer, hbucket, hupd, hup]
    refine ⟨_, _, henq, ?_⟩
    have hspine' : ∀ tk', spine ⟨st3, (tk, s.nextId) :: s.timers, h2', s.nextId + 1,
        s.events ++ [Ev.enq s.nextId time tk]⟩ tk'
        = if tk' = tk then s.nextId :: spine s tk' else spine s tk' := by
      intro tk'
      unfold spine
      simp only
      rw [enqIds_append]
      show ((enqIds s.events ++ [s.nextId]).reverse.filter
        (fun id => decide ((lookupA st3 id).map Timer.token = some tk'))) = _
      rw [List.reverse_append]
      simp only [List.reverse_singleton, List.singleton_append]
      rw [List.filter_cons]
      have htail : (enqIds s.events).reverse.filter
          (fun id => decide ((lookupA st3 id).map Timer.token = some tk'))
          = spine s tk' := by
        unfold spine
        refine List.filter_congr ?_
        intro x hx
        rw [List.mem_reverse] at hx
        have hxlt := henq_lt x hx
        have hxne : ¬ x = s.nextId := by omega
        rw [htok3, if_neg hxne]
      by_cases htkk : tk' = tk
      · subst htkk
        rw [if_pos (by rw [htok3, if_pos rfl]; simp), htail]
        rw [if_pos rfl]
        exact rfl
      · rw [if_neg (by rw [htok3, if_pos rfl]; simp [Ne.symm htkk]), htail, if_neg htkk]
        exact rfl
    unfold INV
    refine ⟨?_, ?_, ?_, ?_, ?_, ?_, ?_, ?_, ?_, ?_, ?_⟩
    · show (st3.map Prod.fst).Nodup
      rw [hkeys3]
      refine List.nodup_cons.mpr ⟨?_, h1⟩
      intro hc
      exact absurd (h11 _ hc) (by omega)
    · exact hok3.1
    · intro x hx
      show x ∈ st3.map Prod.fst
      rw [hkeys3]
      rcases (hmem2' x).mp hx with hx | hx
      · exact List.mem_cons_of_mem _ (h3 x hx)
      · rw [hx]
        exact List.mem_cons_self _ _
    · intro x hx
      replace hx : x ∈ st3.map Prod.fst := hx
      rw [hkeys3] at hx
      rw [show (⟨st3, (tk, s.nextId) :: s.timers, h2', s.nextId + 1,
        s.events ++ [Ev.enq s.nextId time tk]⟩ : QState).heap = h2' from rfl, hmem2' x]
      rcases List.mem_cons.mp hx with hx | hx
      · right
        exact hx
      · left
        exact h4 x hx
    · exact hok3.2.2
    · show (((tk, s.nextId) :: s.timers).map Prod.fst).Nodup
      rw [List.map_cons]
      exact List.nodup_cons.mpr ⟨by rwa [← lookupA_eq_none_iff], h6⟩
    · intro p hp
      rcases List.mem_cons.mp hp with rfl | hp
      · rw [hspine']
        rw [if_pos rfl, hspine_tk_nil]
        refine ⟨by simp, by simp, ?_⟩
        show linked st3 none [s.nextId]
        obtain ⟨t', hl', hp', hn', _, _⟩ :=
          sameShape_lookup hshape23 (show lookupA st2 s.nextId = some _ by rw [hlook2, if_pos rfl])
        unfold linked
        rw [hl']
        refine ⟨?_, ?_, trivial⟩
        · rw [hp']
        · rw [hn']
          rfl

      · obtain ⟨hne, hhd, hlk⟩ := h7 p hp
        have hp1 : p.1 ∈ s.timers.map Prod.fst := List.mem_map_of_mem Prod.fst hp
        have hp1tk : ¬ p.1 = tk := fun hh =>
          absurd hp1 (hh ▸ (lookupA_eq_none_iff _ _).mp hbucket)
        rw [hspine', if_neg hp1tk]
        refine ⟨hne, hhd, ?_⟩
        have hmemlive : ∀ x ∈ spine s p.1, lookupA st2 x = lookupA s.store x := by
          intro x hxs
          obtain ⟨u, hu, _⟩ := mem_spine_live hxs
          have hxk : x ∈ storeKeys s := (lookupA_isSome_iff _ _).mp (by rw [hu]; rfl)
          have hxne : ¬ x = s.nextId := fun hh => absurd (h11 x hxk) (by omega)
          rw [hlook2, if_neg hxne]
        exact linked_of_sameShape hshape23 (linked_congr_on hmemlive hlk)
    · intro x hx t ht
      replace hx : x ∈ st3.map Prod.fst := hx
      rw [hkeys3] at hx
      show t.token ∈ ((tk, s.nextId) :: s.timers).map Prod.fst
      rw [List.map_cons]
      by_cases hxid : x = s.nextId
      · have htkx := htok3 x
        rw [if_pos hxid, ht] at htkx
        have : t.token = tk := by simpa using htkx
        rw [this]
        exact List.mem_cons_self _ _
      · have htkx := htok3 x
        rw [if_neg hxid, ht] at htkx
        cases hold : lookupA s.store x with
        | none =>
          rw [hold] at htkx
          simp at htkx
        | some u =>
          rw [hold] at htkx
          have : t.token = u.token := by simpa using htkx
          rw [this]
          have hxk : x ∈ storeKeys s := by
            rcases List.mem_cons.mp hx with hh | hh
            · exact absurd hh hxid
            · exact hh
          exact List.mem_cons_of_mem _ (h8 x hxk u hold)
    · intro iid hiid
      have hiid2 : iid < s.nextId + 1 := by simpa using hiid
      have hec : enqCount (s.events ++ [Ev.enq s.nextId time tk]) iid
          = enqCount s.events iid + (if s.nextId = iid then 1 else 0) := by
        rw [enqCount_append, enqCount_enq]
      have htc : termCount (s.events ++ [Ev.enq s.nextId time tk]) iid
          = termCount s.events iid := by
        rw [termCount_append, termCount_enq]
        omega
      refine ⟨?_, ?_, ?_⟩
      · by_cases hi : iid = s.nextId
        · rw [hec, hi, if_pos rfl, henqc0]
        · rw [hec, if_neg (fun hh => hi hh.symm),
            (h9 iid (List.mem_range.mpr (by omega))).1]
      · rw [htc]
        by_cases hi : iid = s.nextId
        · rw [hi, htc0]
          omega
        · exact (h9 iid (List.mem_range.mpr (by omega))).2.1
      · rw [htc]
        show _ ↔ iid ∈ st3.map Prod.fst
        rw [hkeys3]
        by_cases hi : iid = s.nextId
        · rw [hi, htc0]
          simp
        · rw [List.mem_cons]
          have hold := (h9 iid (List.mem_range.mpr (by omega))).2.2
          constructor
          · intro hz
            right
            exact hold.mp hz
          · rintro (hh | hh)
            · exact absurd hh hi
            · exact hold.mpr hh
    · intro e he
      show evId e < s.nextId + 1
      rcases List.mem_append.mp he with he | he
      · have := h10 e he
        omega
      · rw [List.mem_singleton] at he
        rw [he]
        simp [evId]
    · intro x hx
      show x < s.nextId + 1
      replace hx : x ∈ st3.map Prod.fst := hx
      rw [hkeys3] at hx
      rcases List.mem_cons.mp hx with hh | hh
      · omega
      · have := h11 x hh
        omega
  · -- the token is already hashed: prepend to its chain
    obtain ⟨head, hbk⟩ : ∃ head, lookupA s.timers tk = some head := by
      cases hlk : lookupA s.timers tk with
      | none => exact absurd hlk hbucket
      | some v => exact ⟨v, rfl⟩
    have hmemtk : (tk, head) ∈ s.timers := lookupA_mem hbk
    obtain ⟨hspne, hsphd, hsplk⟩ := h7 (tk, head) hmemtk
    have hheadsp : head ∈ spine s tk := by
      cases hsp : spine s tk with
      | nil => exact absurd hsp hspne
      | cons y ys =>
        rw [hsp] at hsphd
        have hy : y = head := by simpa using hsphd
        rw [hy]
        exact List.mem_cons_self _ _
    obtain ⟨th, hth, hthtk⟩ := mem_spine_live hheadsp
    have hheadk : head ∈ storeKeys s := (lookupA_isSome_iff _ _).mp (by rw [hth]; rfl)
    have hheadlt : head < s.nextId := h11 head hheadk
    have hheadne : ¬ head = s.nextId := by omega
    obtain ⟨st0, hupd0⟩ : ∃ st0,
        updA s.store head (fun u => { u with prev := some s.nextId }) = some st0 := by
      refine Option.isSome_iff_exists.mp ((updA_isSome_iff _ _ _).mpr ?_)
      rw [hth]
      rfl
    have hlook0 : ∀ x, lookupA st0 x
        = if x = head then some { th with prev := some s.nextId } else lookupA s.store x := by
      intro x
      rw [lookupA_updA hupd0 x]
      by_cases hx : x = head
      · rw [if_pos hx, if_pos hx, hth]
        rfl
      · rw [if_neg hx, if_neg hx]
    have hlook1 : ∀ x,
        lookupA ((s.nextId, (⟨time, tk, some head, none, sentinelIdx⟩ : Timer)) :: st0) x
          = if s.nextId = x then some (⟨time, tk, some head, none, sentinelIdx⟩ : Timer)
            else if x = head then some { th with prev := some s.nextId }
            else lookupA s.store x := by
      intro x
      rw [lookupA_cons]
      by_cases hx : s.nextId = x
      · rw [if_pos hx, if_pos hx]
      · rw [if_neg hx, if_neg hx, hlook0]
    obtain ⟨st2, hupd⟩ : ∃ st2,
        updA ((s.nextId, (⟨time, tk, some head, none, sentinelIdx⟩ : Timer)) :: st0) s.nextId
          (fun u => { u with heap_index := s.heap.length }) = some st2 := by
      refine Option.isSome_iff_exists.mp ((updA_isSome_iff _ _ _).mpr ?_)
      rw [hlook1, if_pos rfl]
      rfl
    have hlook2 : ∀ x, lookupA st2 x
        = if x = s.nextId then some (⟨time, tk, some head, none, s.heap.length⟩ : Timer)
          else if x = head then some { th with prev := some s.nextId }
          else lookupA s.store x := by
      intro x
      rw [lookupA_updA hupd x]
      by_cases hx : x = s.nextId
      · rw [if_pos hx, if_pos hx, hlook1, if_pos rfl]
        rfl
      · rw [if_neg hx, if_neg hx, hlook1, if_neg (fun hh => hx hh.symm)]
    have hkeys2 : st2.map Prod.fst = s.nextId :: s.store.map Prod.fst := by
      rw [keys_updA hupd]
      show s.nextId :: st0.map Prod.fst = _
      rw [keys_updA hupd0]
    have hhi2 : ∀ x, ¬ x = s.nextId →
        (lookupA st2 x).map Timer.heap_index = (lookupA s.store x).map Timer.heap_index := by
      intro x hx
      rw [hlook2, if_neg hx]
      by_cases hxh : x = head
      · rw [if_pos hxh, hxh, hth]
        rfl
      · rw [if_neg hxh]
    have hok2 : HeapOK st2 (s.heap ++ [s.nextId]) := by
      refine ⟨?_, ?_, ?_⟩
      · rw [List.nodup_append]
        exact ⟨h2, List.nodup_singleton _, by
          intro x hx hx1
          rw [List.mem_singleton] at hx1
          exact hfresh_heap (hx1 ▸ hx)⟩
      · intro x hx
        rcases List.mem_append.mp hx with hx | hx
        · have hxne : ¬ x = s.nextId := fun hh => hfresh_heap (hh ▸ hx)
          rw [hlook2, if_neg hxne]
          by_cases hxh : x = head
          · rw [if_pos hxh]
            rfl
          · rw [if_neg hxh, lookupA_isSome_iff]
            exact h3 x hx
        · rw [List.mem_singleton] at hx
          rw [hlook2, if_pos hx]
          rfl
      · intro n hn
        rw [List.mem_range, List.length_append, List.length_singleton] at hn
        by_cases hnl : n < s.heap.length
        · rw [List.getElem?_append_left hnl]
          have hold := h5 n (List.mem_range.mpr hnl)
          obtain ⟨x, hx⟩ := Option.isSome_iff_exists.mp
            (by rw [Option.isSome_iff_ne_none, ne_eq, List.getElem?_eq_none_iff]; omega :
              (s.heap[n]?).isSome = true)
          rw [hx]
          rw [hx] at hold
          have hxne : ¬ x = s.nextId := fun hh =>
            hfresh_heap (hh ▸ List.getElem?_mem hx)
          show (lookupA st2 x).map Timer.heap_index = some n
          rw [hhi2 x hxne]
          exact hold
        · have hn' : n = s.heap.length := by omega
          rw [hn', List.getElem?_concat_length]
          show (lookupA st2 s.nextId).map Timer.heap_index = some s.heap.length
          rw [hlook2, if_pos rfl]
          rfl
    obtain ⟨st3, h2', hup⟩ := up_heap_total cmp (s.heap ++ [s.nextId]).length st2
      (s.heap ++ [s.nextId]) ((s.heap ++ [s.nextId]).length - 1) hok2
      (by simp) (by simp)
    obtain ⟨hok3, hrel⟩ := up_heap_pres cmp _ _ _ _ _ _ hup hok2
    have hkeys3 : st3.map Prod.fst = s.nextId :: s.store.map Prod.fst := hrel.1.trans hkeys2
    have hshape23 : sameShape st2 st3 := hrel.2.1
    have hmem2' : ∀ x, x ∈ h2' ↔ x ∈ s.heap ∨ x = s.nextId := by
      intro x
      rw [hrel.2.2.2 x, List.mem_append, List.mem_singleton]
    have htok3 : ∀ x, (lookupA st3 x).map Timer.token
        = if x = s.nextId then some tk else (lookupA s.store x).map Timer.token := by
      intro x
      rw [sameShape_token hshape23 x, hlook2]
      by_cases hx : x = s.nextId
      · rw [if_pos hx, if_pos hx]
        rfl
      · rw [if_neg hx, if_neg hx]
        by_cases hxh : x = head
        · rw [if_pos hxh, hxh, hth]
          rfl
        · rw [if_neg hxh]
    have henq : enqueue_timer cmp s time tk
        = some (⟨st3, setA s.timers tk s.nextId, h2', s.nextId + 1,
                 s.events ++ [Ev.enq s.nextId time tk]⟩,
                decide (h2'.head? = some s.nextId)) := by
      simp only [enqueue_timer, hbk, hupd0, hupd, hup]
    refine ⟨_, _, henq, ?_⟩
    have hspine' : ∀ tk', spine ⟨st3, setA s.timers tk s.nextId, h2', s.nextId + 1,
        s.events ++ [Ev.enq s.nextId time tk]⟩ tk'
        = if tk' = tk then s.nextId :: spine s tk' else spine s tk' := by
      intro tk'
      unfold spine
      simp only
      rw [enqIds_append]
      show ((enqIds s.events ++ [s.nextId]).reverse.filter
        (fun id => decide ((lookupA st3 id).map Timer.token = some tk'))) = _
      rw [List.reverse_append]
      simp only [List.reverse_singleton, List.singleton_append]
      rw [List.filter_cons]
      have htail : (enqIds s.events).reverse.filter
          (fun id => decide ((lookupA st3 id).map Timer.token = some tk'))
          = spine s tk' := by
        unfold spine
        refine List.filter_congr ?_
        intro x hx
        rw [List.mem_reverse] at hx
        have hxlt := henq_lt x hx
        have hxne : ¬ x = s.nextId := by omega
        rw [htok3, if_neg hxne]
      by_cases htkk : tk' = tk
      · subst htkk
        rw [if_pos (by rw [htok3, if_pos rfl]; simp), htail]
        rw [if_pos rfl]
        exact rfl
      · rw [if_neg (by rw [htok3, if_pos rfl]; simp [Ne.symm htkk]), htail, if_neg htkk]
        exact rfl
    unfold INV
    refine ⟨?_, ?_, ?_, ?_, ?_, ?_, ?_, ?_, ?_, ?_, ?_⟩
    · show (st3.map Prod.fst).Nodup
      rw [hkeys3]
      refine List.nodup_cons.mpr ⟨?_, h1⟩
      intro hc
      exact absurd (h11 _ hc) (by omega)
    · exact hok3.1
    · intro x hx
      show x ∈ st3.map Prod.fst
      rw [hkeys3]
      rcases (hmem2' x).mp hx with hx | hx
      · exact List.mem_cons_of_mem _ (h3 x hx)
      · rw [hx]
        exact List.mem_cons_self _ _
    · intro x hx
      replace hx : x ∈ st3.map Prod.fst := hx
      rw [hkeys3] at hx
      rw [show (⟨st3, setA s.timers tk s.nextId, h2', s.nextId + 1,
        s.events ++ [Ev.enq s.nextId time tk]⟩ : QState).heap = h2' from rfl, hmem2' x]
      rcases List.mem_cons.mp hx with hx | hx
      · right
        exact hx
      · left
        exact h4 x hx
    · exact hok3.2.2
    · show ((setA s.timers tk s.nextId).map Prod.fst).Nodup
      rw [keys_setA]
      exact h6
    · intro p hp
      have hpl : lookupA (setA s.timers tk s.nextId) p.1 = some p.2 := by
        refine mem_lookupA ?_ ?_
        · rw [keys_setA]
          exact h6
        · exact hp
      rw [lookupA_setA] at hpl
      by_cases hp1 : p.1 = tk
      · rw [if_pos hp1, hbk] at hpl
        have hp2 : p.2 = s.nextId := by
          have hx := hpl
          simp only [Option.map_some'] at hx
          exact (Option.some_inj.mp hx).symm
        rw [hspine', if_pos hp1, hp1]
        have hcons : spine s tk = head :: (spine s tk).tail := by
          cases hsp : spine s tk with
          | nil => exact absurd hsp hspne
          | cons y ys =>
            rw [hsp] at hsphd
            have : y = head := by simpa using hsphd
            rw [this]
            rfl
        refine ⟨by simp, by rw [hp2]; rfl, ?_⟩
        show linked st3 none (s.nextId :: spine s tk)
        rw [hcons] at hsplk ⊢
        unfold linked at hsplk
        rw [hth] at hsplk
        obtain ⟨hthp, hthn, hrestlk⟩ := hsplk
        have hspnd : (spine s tk).Nodup := INV_spine_nodup hINVc tk
        rw [hcons] at hspnd
        rw [List.nodup_cons] at hspnd
        show linked st3 none (s.nextId :: head :: (spine s tk).tail)
        obtain ⟨tid3, htid3, htid3p, htid3n, _, _⟩ :=
          sameShape_lookup hshape23 (show lookupA st2 s.nextId = some _ by rw [hlook2, if_pos rfl])
        obtain ⟨th3, hth3, hth3p, hth3n, _, _⟩ :=
          sameShape_lookup hshape23
            (show lookupA st2 head = some { th with prev := some s.nextId } by
              rw [hlook2, if_neg hheadne, if_pos rfl])
        unfold linked
        rw [htid3]
        refine ⟨by rw [htid3p], by rw [htid3n]; rfl, ?_⟩
        unfold linked
        rw [hth3]
        refine ⟨by rw [hth3p], by rw [hth3n]; exact hthn, ?_⟩
        have hcongr : ∀ x ∈ (spine s tk).tail, lookupA st2 x = lookupA s.store x := by
          intro x hxs
          have hxsp : x ∈ spine s tk := by
            rw [hcons]
            exact List.mem_cons_of_mem _ hxs
          obtain ⟨u, hu, _⟩ := mem_spine_live hxsp
          have hxk : x ∈ storeKeys s := (lookupA_isSome_iff _ _).mp (by rw [hu]; rfl)
          have hxne : ¬ x = s.nextId := fun hh => absurd (h11 x hxk) (by omega)
          have hxnh : ¬ x = head := fun hh => hspnd.1 (hh ▸ hxs)
          rw [hlook2, if_neg hxne, if_neg hxnh]
        exact linked_of_sameShape hshape23 (linked_congr_on hcongr hrestlk)
      · rw [if_neg hp1] at hpl
        have hpmem : (p.1, p.2) ∈ s.timers := lookupA_mem hpl
        obtain ⟨hne, hhd, hlk⟩ := h7 (p.1, p.2) hpmem
        rw [hspine', if_neg hp1]
        refine ⟨hne, hhd, ?_⟩
        have hmemlive : ∀ x ∈ spine s p.1, lookupA st2 x = lookupA s.store x := by
          intro x hxs
          obtain ⟨u, hu, hutk⟩ := mem_spine_live hxs
          have hxk : x ∈ storeKeys s := (lookupA_isSome_iff _ _).mp (by rw [hu]; rfl)
          have hxne : ¬ x = s.nextId := fun hh => absurd (h11 x hxk) (by omega)
          have hxnh : ¬ x = head := by
            intro hh
            rw [hh, hth] at hu
            have hueq : th = u := Option.some_inj.mp hu
            rw [← hueq] at hutk
            exact hp1 (by rw [← hutk, hthtk])
          rw [hlook2, if_neg hxne, if_neg hxnh]
        exact linked_of_sameShape hshape23 (linked_congr_on hmemlive hlk)
    · intro x hx t ht
      replace hx : x ∈ st3.map Prod.fst := hx
      rw [hkeys3] at hx
      show t.token ∈ (setA s.timers tk s.nextId).map Prod.fst
      rw [keys_setA]
      have htkmem : tk ∈ s.timers.map Prod.fst :=
        (lookupA_isSome_iff _ _).mp (by rw [hbk]; rfl)
      by_cases hxid : x = s.nextId
      · have htkx := htok3 x
        rw [if_pos hxid, ht] at htkx
        have : t.token = tk := by simpa using htkx
        rw [this]
        exact htkmem
      · have htkx := htok3 x
        rw [if_neg hxid, ht] at htkx
        cases hold : lookupA s.store x with
        | none =>
          rw [hold] at htkx
          simp at htkx
        | some u =>
          rw [hold] at htkx
          have : t.token = u.token := by simpa using htkx
          rw [this]
          have hxk : x ∈ storeKeys s := by
            rcases List.mem_cons.mp hx with hh | hh
            · exact absurd hh hxid
            · exact hh
          exact h8 x hxk u hold
    · intro iid hiid
      have hiid2 : iid < s.nextId + 1 := by simpa using hiid
      have hec : enqCount (s.events ++ [Ev.enq s.nextId time tk]) iid
          = enqCount s.events iid + (if s.nextId = iid then 1 else 0) := by
        rw [enqCount_append, enqCount_enq]
      have htc : termCount (s.events ++ [Ev.enq s.nextId time tk]) iid
          = termCount s.events iid := by
        rw [termCount_append, termCount_enq]
        omega
      refine ⟨?_, ?_, ?_⟩
      · by_cases hi : iid = s.nextId
        · rw [hec, hi, if_pos rfl, henqc0]
        · rw [hec, if_neg (fun hh => hi hh.symm),
            (h9 iid (List.mem_range.mpr (by omega))).1]
      · rw [htc]
        by_cases hi : iid = s.nextId
        · rw [hi, htc0]
          omega
        · exact (h9 iid (List.mem_range.mpr (by omega))).2.1
      · rw [htc]
        show _ ↔ iid ∈ st3.map Prod.fst
        rw [hkeys3]
        by_cases hi : iid = s.nextId
        · rw [hi, htc0]
          simp
        · rw [List.mem_cons]
          have hold := (h9 iid (List.mem_range.mpr (by omega))).2.2
          constructor
          · intro hz
            right
            exact hold.mp hz
          · rintro (hh | hh)
            · exact absurd hh hi
            · exact hold.mpr hh
    · intro e he
      show evId e < s.nextId + 1
      rcases List.mem_append.mp he with he | he
      · have := h10 e he
        omega
      · rw [List.mem_singleton] at he
        rw [he]
        simp [evId]
    · intro x hx
      show x < s.nextId + 1
      replace hx : x ∈ st3.map Prod.fst := hx
      rw [hkeys3] at hx
      rcases List.mem_cons.mp hx with hh | hh
      · omega
      · have := h11 x hh
        omega

theorem updO_spec {st : Store} {k : Option Nat} {f : Timer → Timer} {st' : Store}
    (h : updO st k f = some st') :
    st'.map Prod.fst = st.map Prod.fst
      ∧ ∀ x, lookupA st' x = if k = some x then (lookupA st x).map f else lookupA st x := by
  cases k with
  | none =>
    have heq : st = st' := Option.some_inj.mp h
    subst heq
    exact ⟨rfl, fun x => by rw [if_neg (by simp)]⟩
  | some kk =>
    refine ⟨keys_updA h, ?_⟩
    intro x
    rw [lookupA_updA h x]
    by_cases hx : x = kk
    · rw [if_pos hx, if_pos (by rw [hx]), hx]
    · rw [if_neg hx, if_neg (by simpa using fun hh => hx hh.symm)]

theorem updO_total {st : Store} {k : Option Nat} {f : Timer → Timer}
    (h : ∀ kk, k = some kk → (lookupA st kk).isSome = true) :
    ∃ st', updO st k f = some st' := by
  cases k with
  | none => exact ⟨st, rfl⟩
  | some kk =>
    exact Option.isSome_iff_exists.mp ((updA_isSome_iff _ _ _).mpr (h kk rfl))

theorem HeapOK_dropLast {st : Store} {h : List Nat} (hok : HeapOK st h) :
    HeapOK st h.dropLast := by
  obtain ⟨nd, hlive, hcache⟩ := hok
  refine ⟨List.Sublist.nodup (List.dropLast_sublist h) nd, ?_, ?_⟩
  · intro x hx
    exact hlive x (List.Sublist.mem hx (List.dropLast_sublist h))
  · intro n hn
    rw [List.mem_range, List.length_dropLast] at hn
    rw [List.getElem?_dropLast, if_pos hn]
    exact hcache n (List.mem_range.mpr (by omega))

theorem swap_pop_mem {h : List Nat} {hi tid last : Nat} (nd : h.Nodup)
    (hhi : h[hi]? = some tid) (hlast : h[h.length - 1]? = some last) :
    ∀ x, x ∈ ((h.set hi last).set (h.length - 1) tid).dropLast ↔ x ∈ h ∧ x ≠ tid := by
  intro x
  have hhil : hi < h.length := (List.getElem?_eq_some_iff.mp hhi).1
  constructor
  · intro hx
    rcases List.mem_iff_getElem?.mp hx with ⟨n, hn⟩
    have hnlen : n < ((h.set hi last).set (h.length - 1) tid).dropLast.length :=
      (List.getElem?_eq_some_iff.mp hn).1
    rw [List.length_dropLast, List.length_set, List.length_set] at hnlen
    rw [List.getElem?_dropLast, if_pos (by simpa using hnlen)] at hn
    rw [getElem?_swapL_orig hhi hlast] at hn
    refine ⟨List.getElem?_mem hn, ?_⟩
    intro hxt
    subst hxt
    have hσ := nodup_getElem?_inj nd hhil (hn.trans hhi.symm)
    unfold swapIdx at hσ
    by_cases h1 : n = h.length - 1
    · rw [if_pos h1] at hσ
      omega
    · rw [if_neg h1] at hσ
      by_cases h2 : n = hi
      · rw [if_pos h2] at hσ
        omega
      · rw [if_neg h2] at hσ
        omega
  · rintro ⟨hx, hxt⟩
    rcases List.mem_iff_getElem?.mp hx with ⟨n, hn⟩
    have hnl : n < h.length := (List.getElem?_eq_some_iff.mp hn).1
    have hnhi : n ≠ hi := by
      intro hh
      rw [hh, hhi] at hn
      exact hxt (Option.some_inj.mp hn).symm
    refine List.mem_iff_getElem?.mpr ⟨swapIdx hi (h.length - 1) n, ?_⟩
    have hswn : swapIdx hi (h.length - 1) n < h.length - 1 := by
      unfold swapIdx
      by_cases h1 : n = h.length - 1
      · rw [if_pos h1]
        omega
      · rw [if_neg h1, if_neg hnhi]
        omega
    rw [List.getElem?_dropLast, if_pos (by simpa using hswn),
      getElem?_swapL_orig hhi hlast, swapIdx_invol]
    exact hn

theorem endPrev_none_iff (A : List Nat) : endPrev none A = none ↔ A = [] := by
  unfold endPrev
  cases hA : A.getLast? with
  | none => simpa using List.getLast?_eq_none_iff.mp hA
  | some a =>
    simp only
    constructor
    · intro hh
      cases hh
    · intro hh
      rw [hh] at hA
      cases hA

theorem endPrev_mem {A : List Nat} {p : Option Nat} {c : Nat} (h : endPrev p A = some c) :
    p = some c ∨ c ∈ A := by
  unfold endPrev at h
  cases hA : A.getLast? with
  | none =>
    rw [hA] at h
    exact Or.inl h
  | some a =>
    rw [hA] at h
    right
    rw [← Option.some_inj.mp h]
    exact List.mem_of_mem_getLast? (by rw [hA]; exact Option.mem_def.mpr rfl)

theorem linkedSeg_splice {st st4 : Store} {tid : Nat} {t : Timer} {B : List Nat}
    (ht : lookupA st tid = some t)
    (htnext : t.next = contHead B none)
    (hlook : ∀ x, x ≠ tid →
      lookupA st4 x
        = if t.prev = some x then (lookupA st x).map (fun u => { u with next := t.next })
          else if t.next = some x then (lookupA st x).map (fun u => { u with prev := t.prev })
          else lookupA st x) :
    ∀ (A : List Nat) (p : Option Nat),
      linkedSeg st p (A ++ tid :: B) none →
      (A ++ tid :: B).Nodup →
      (∀ x ∈ B, p ≠ some x) →
      t.prev = endPrev p A →
      linkedSeg st4 p (A ++ B) none := by
  intro A
  induction A with
  | nil =>
    intro p hseg hnd hpB hprev
    simp only [List.nil_append] at hseg hnd ⊢
    unfold linkedSeg at hseg
    rw [ht] at hseg
    obtain ⟨htp, htn, hsegB⟩ := hseg
    rw [List.nodup_cons] at hnd
    cases hB : B with
    | nil =>
      subst hB
      trivial
    | cons nx B' =>
      subst hB
      unfold linkedSeg at hsegB ⊢
      have hnxtid : nx ≠ tid := by
        intro hh
        exact hnd.1 (hh ▸ List.mem_cons_self _ _)
      cases hnx : lookupA st nx with
      | none =>
        rw [hnx] at hsegB
        exact hsegB.elim
      | some tn =>
        rw [hnx] at hsegB
        obtain ⟨hnp, hnn, hsegB'⟩ := hsegB
        have hl4 : lookupA st4 nx = some { tn with prev := t.prev } := by
          rw [hlook nx hnxtid]
          have hc1 : ¬ t.prev = some nx := by
            rw [hprev]
            intro hh
            exact hpB nx (List.mem_cons_self _ _) ((by exact hh : endPrev p [] = some nx) ▸ rfl)
          rw [if_neg hc1, if_pos (by rw [htnext]; rfl), hnx]
          rfl
        rw [hl4]
        refine ⟨?_, by simpa using hnn, ?_⟩
        · show t.prev = p
          rw [hprev]
          rfl
        · refine linkedSeg_congr_on ?_ _ _ hsegB'
          intro x hxB
          have hxtid : x ≠ tid := by
            intro hh
            exact hnd.1 (hh ▸ List.mem_cons_of_mem _ hxB)
          rw [hlook x hxtid]
          have hc1 : ¬ t.prev = some x := by
            rw [hprev]
            intro hh
            exact hpB x (List.mem_cons_of_mem _ hxB) ((by exact hh : endPrev p [] = some x) ▸ rfl)
          have hc2 : ¬ t.next = some x := by
            rw [htnext]
            intro hh
            have hxnx : nx = x := by simpa [contHead] using hh
            rw [List.nodup_cons] at hnd
            exact hnd.2.1 (hxnx ▸ hxB)
          rw [if_neg hc1, if_neg hc2]
  | cons a A' ih =>
    intro p hseg hnd hpB hprev
    simp only [List.cons_append] at hseg hnd ⊢
    have hatid : a ≠ tid := by
      rw [List.nodup_cons] at hnd
      intro hh
      exact hnd.1 (hh ▸ List.mem_append.mpr (Or.inr (List.mem_cons_self _ _)))
    unfold linkedSeg at hseg
    cases ha : lookupA st a with
    | none =>
      rw [ha] at hseg
      exact hseg.elim
    | some ta =>
      rw [ha] at hseg
      obtain ⟨hap, han, hseg'⟩ := hseg
      rw [List.nodup_cons] at hnd
      have hpB' : ∀ x ∈ B, (some a : Option Nat) ≠ some x := by
        intro x hx hh
        have hax : a = x := by simpa using hh
        exact hnd.1 (hax ▸ List.mem_append.mpr (Or.inr (List.mem_cons_of_mem _ hx)))
      have hprev' : t.prev = endPrev (some a) A' := by
        rw [hprev, endPrev_cons]
      have hrec := ih (some a) hseg' hnd.2 hpB' hprev'
      by_cases hA' : A' = []
      · subst hA'
        have htpa : t.prev = some a := by
          rw [hprev']
          rfl
        have hl4 : lookupA st4 a = some { ta with next := t.next } := by
          rw [hlook a hatid, if_pos htpa, ha]
          rfl
        unfold linkedSeg
        rw [hl4]
        refine ⟨by simpa using hap, ?_, by simpa using hrec⟩
        show t.next = contHead ([] ++ B) none
        rw [List.nil_append, htnext]
      · have htpa : ¬ t.prev = some a := by
          rw [hprev']
          cases hgl : A'.getLast? with
          | none => exact absurd (List.getLast?_eq_none_iff.mp hgl) hA'
          | some c =>
            unfold endPrev
            rw [hgl]
            intro hh
            have hca : c = a := Option.some_inj.mp hh
            have hcm : c ∈ A' :=
              List.mem_of_mem_getLast? (by rw [hgl]; exact Option.mem_def.mpr rfl)
            rw [hca] at hcm
            exact hnd.1 (List.mem_append.mpr (Or.inl hcm))
        have htna : ¬ t.next = some a := by
          rw [htnext]
          cases hB : B with
          | nil => simp [contHead]
          | cons b B'' =>
            intro hh
            have hba : b = a := by simpa [contHead] using hh
            refine hnd.1 (List.mem_append.mpr (Or.inr (List.mem_cons_of_mem _ ?_)))
            rw [hB, ← hba]
            exact List.mem_cons_self _ _
        have hl4 : lookupA st4 a = some ta := by
          rw [hlook a hatid, if_neg htpa, if_neg htna, ha]
        unfold linkedSeg
        rw [hl4]
        refine ⟨hap, ?_, hrec⟩
        rw [han]
        cases A' with
        | nil => exact absurd rfl hA'
        | cons a' A'' => rfl

theorem linked_splice {st st4 : Store} {tid : Nat} {t : Timer} {A B : List Nat}
    (ht : lookupA st tid = some t)
    (hlk : linked st none (A ++ tid :: B))
    (hnd : (A ++ tid :: B).Nodup)
    (hlook : ∀ x, x ≠ tid →
      lookupA st4 x
        = if t.prev = some x then (lookupA st x).map (fun u => { u with next := t.next })
          else if t.next = some x then (lookupA st x).map (fun u => { u with prev := t.prev })
          else lookupA st x) :
    linked st4 none (A ++ B)
      ∧ t.prev = endPrev none A ∧ t.next = contHead B none := by
  rw [linked_iff_seg] at hlk
  have hdec := (linkedSeg_append st A (tid :: B) none none).mp hlk
  have hmid := hdec.2
  unfold linkedSeg at hmid
  rw [ht] at hmid
  obtain ⟨htp, htnext, _⟩ := hmid
  refine ⟨?_, htp, htnext⟩
  rw [linked_iff_seg]
  exact linkedSeg_splice ht htnext hlook A none hlk hnd (by simp) htp

theorem INV_heapOK {s : QState} (hINV : INV s) : HeapOK s.store s.heap := by
  obtain ⟨h1, h2, h3, h4, h5, _⟩ := hINV
  exact ⟨h2, fun x hx => (lookupA_isSome_iff _ _).mpr (h3 x hx), h5⟩

theorem heap_slot {s : QState} {tid : Nat} {t : Timer} (hINV : INV s)
    (ht : lookupA s.store tid = some t) :
    s.heap[t.heap_index]? = some tid ∧ t.heap_index < s.heap.length := by
  obtain ⟨h1, h2, h3, h4, h5, _⟩ := hINV
  have hks : tid ∈ storeKeys s := (lookupA_isSome_iff _ _).mp (by rw [ht]; rfl)
  have hmemh : tid ∈ s.heap := h4 tid hks
  obtain ⟨n, hn⟩ := List.mem_iff_getElem?.mp hmemh
  have hn' : n < s.heap.length := (List.getElem?_eq_some_iff.mp hn).1
  have hcache := h5 n (List.mem_range.mpr hn')
  rw [hn] at hcache
  simp only [Option.some_bind] at hcache
  rw [ht] at hcache
  have hhi : t.heap_index = n := by simpa using hcache
  rw [hhi]
  exact ⟨hn, hn'⟩

theorem contHead_some_mem {B : List Nat} {c : Nat} (h : contHead B none = some c) :
    c ∈ B := by
  cases B with
  | nil => cases h
  | cons b B' =>
    have hb : b = c := Option.some_inj.mp h
    rw [← hb]
    exact List.mem_cons_self _ _

theorem remove_heap_spec (cmp : Int → Int → Bool) {s : QState} {tid : Nat} {t : Timer}
    (hINV : INV s) (ht : lookupA s.store tid = some t) {stH : Store} {hH : List Nat}
    (he : remove_heap cmp s.store s.heap t = some (stH, hH)) :
    stH.map Prod.fst = s.store.map Prod.fst
      ∧ sameShape s.store stH
      ∧ HeapOK stH hH
      ∧ (∀ x, x ∈ hH ↔ x ∈ s.heap ∧ x ≠ tid)
      ∧ hH.length = s.heap.length - 1 := by
  obtain ⟨hslot, hlt⟩ := heap_slot hINV ht
  have hok : HeapOK s.store s.heap := INV_heapOK hINV
  simp only [remove_heap] at he
  by_cases hlen : s.heap.length > 1
  · rw [if_pos hlen] at he
    have hlast : (s.heap[s.heap.length - 1]?).isSome = true := by
      rw [Option.isSome_iff_ne_none, ne_eq, List.getElem?_eq_none_iff]
      omega
    obtain ⟨last, hlast'⟩ := Option.isSome_iff_exists.mp hlast
    obtain ⟨tl, htl⟩ := Option.isSome_iff_exists.mp
      (hok.2.1 last (List.getElem?_mem hlast'))
    obtain ⟨st1, hsw, hok1, hrel1, _⟩ := swap_heap_ok hok hslot hlast' ht htl
    simp only [hsw] at he
    have hok2 : HeapOK st1 ((s.heap.set t.heap_index last).set (s.heap.length - 1)
        tid).dropLast := HeapOK_dropLast hok1
    have hmem2 := swap_pop_mem hok.1 hslot hlast'
    have hlen2 : ((s.heap.set t.heap_index last).set (s.heap.length - 1)
        tid).dropLast.length = s.heap.length - 1 := by simp
    have hfin : ∀ st' h', SiftRel st1
          ((s.heap.set t.heap_index last).set (s.heap.length - 1) tid).dropLast st' h' →
        HeapOK st' h' →
        st'.map Prod.fst = s.store.map Prod.fst ∧ sameShape s.store st'
          ∧ HeapOK st' h' ∧ (∀ x, x ∈ h' ↔ x ∈ s.heap ∧ x ≠ tid)
          ∧ h'.length = s.heap.length - 1 := by
      intro st' h' hrel hok'
      refine ⟨hrel.1.trans hrel1.1, sameShape_trans hrel1.2.1 hrel.2.1, hok', ?_, ?_⟩
      · intro x
        rw [hrel.2.2.2 x, hmem2 x]
      · rw [hrel.2.2.1, hlen2]
    by_cases hhi : t.heap_index > 0
    · rw [if_pos hhi] at he
      cases hp : (((s.heap.set t.heap_index last).set (s.heap.length - 1)
          tid).dropLast[t.heap_index / 2]?).bind (lookupA st1) with
      | none =>
        rw [hp] at he
        cases he
      | some p =>
        rw [hp] at he
        simp only [] at he
        by_cases hcmp : cmp t.time p.time = true
        · rw [if_pos hcmp] at he
          obtain ⟨hok3, hrel3⟩ := up_heap_pres cmp _ _ _ _ _ _ he hok2
          exact hfin _ _ hrel3 hok3
        · rw [if_neg hcmp] at he
          obtain ⟨hok3, hrel3⟩ := down_heap_pres cmp _ _ _ _ _ _ he hok2
          exact hfin _ _ hrel3 hok3
    · rw [if_neg hhi] at he
      obtain ⟨hok3, hrel3⟩ := down_heap_pres cmp _ _ _ _ _ _ he hok2
      exact hfin _ _ hrel3 hok3
  · rw [if_neg hlen] at he
    have heap1 : s.heap = [tid] := by
      cases hhp : s.heap with
      | nil =>
        rw [hhp] at hlt
        simp at hlt
      | cons a rest =>
        cases rest with
        | nil =>
          rw [hhp] at hslot hlt
          have : t.heap_index = 0 := by
            simp only [List.length_cons, List.length_nil] at hlt
            omega
          rw [this] at hslot
          have : a = tid := by simpa using hslot
          rw [this]
        | cons b rest2 =>
          rw [hhp] at hlen
          simp at hlen
    have he2 : stH = s.store ∧ hH = [] := by
      have h1 := Option.some_inj.mp he
      exact ⟨(congrArg Prod.fst h1).symm, (congrArg Prod.snd h1).symm⟩
    obtain ⟨he2a, he2b⟩ := he2
    subst he2a
    subst he2b
    refine ⟨rfl, sameShape_refl _, ⟨List.nodup_nil, ?_, ?_⟩, ?_, ?_⟩
    · intro x hx
      cases hx
    · intro n hn
      simp at hn
    · intro x
      simp only [List.not_mem_nil, false_iff]
      rintro ⟨hx, hxt⟩
      rw [heap1] at hx
      exact hxt (by simpa using hx)
    · rw [heap1]
      rfl

theorem remove_hash_spec {s : QState} {tid : Nat} {t : Timer} {stH : Store} {hH : List Nat}
    {s1 : QState}
    (hINV : INV s) (ht : lookupA s.store tid = some t)
    (hkeys2 : stH.map Prod.fst = s.store.map Prod.fst)
    (hshape2 : sameShape s.store stH)
    (he : remove_hash s tid t stH hH = some s1) :
    s1.nextId = s.nextId ∧ s1.events = s.events ∧ s1.heap = hH
      ∧ s1.store.map Prod.fst = s.store.map Prod.fst
      ∧ (∀ x, (lookupA s1.store x).map Timer.token = (lookupA s.store x).map Timer.token)
      ∧ (∀ x, (lookupA s1.store x).map Timer.time = (lookupA s.store x).map Timer.time)
      ∧ (∀ x, (lookupA s1.store x).map Timer.heap_index
            = (lookupA stH x).map Timer.heap_index)
      ∧ (s1.timers.map Prod.fst).Nodup
      ∧ (∀ tk, tk ∈ s1.timers.map Prod.fst → tk ∈ s.timers.map Prod.fst)
      ∧ (∀ p ∈ s1.timers, (spine s p.1).erase tid ≠ []
          ∧ ((spine s p.1).erase tid).head? = some p.2
          ∧ linked s1.store none ((spine s p.1).erase tid))
      ∧ (∀ x u, x ≠ tid → lookupA s1.store x = some u → u.token ∈ s1.timers.map Prod.fst)
      ∧ ((spine s t.token).head? = some tid
          → t.next = ((spine s t.token).erase tid).head?) := by
  obtain ⟨h1, h2, h3, h4, h5, h6, h7, h8, h9, h10, h11⟩ := hINV
  have hINVc : INV s := ⟨h1, h2, h3, h4, h5, h6, h7, h8, h9, h10, h11⟩
  have hks : tid ∈ storeKeys s := (lookupA_isSome_iff _ _).mp (by rw [ht]; rfl)
  have hbt : t.token ∈ s.timers.map Prod.fst := h8 tid hks t ht
  obtain ⟨headId, hhead⟩ := Option.isSome_iff_exists.mp ((lookupA_isSome_iff _ _).mpr hbt)
  have hpair : (t.token, headId) ∈ s.timers := lookupA_mem hhead
  obtain ⟨hne0, hhd0, hlk0⟩ := h7 _ hpair
  have hsp_mem : tid ∈ spine s t.token := live_mem_spine hINVc ht
  obtain ⟨A, B, hAB⟩ := List.append_of_mem hsp_mem
  have hndAB : (A ++ tid :: B).Nodup := hAB ▸ INV_spine_nodup hINVc t.token
  have hd3 := List.nodup_append.mp hndAB
  have htidA : tid ∉ A := fun hc => hd3.2.2 hc (List.mem_cons_self _ _)
  have htidB : tid ∉ B := (List.nodup_cons.mp hd3.2.1).1
  have hlk0' : linked s.store none (A ++ tid :: B) := hAB ▸ hlk0
  have hseg0 : linkedSeg s.store none (A ++ tid :: B) none := (linked_iff_seg _ _ _).mp hlk0'
  have hmid := ((linkedSeg_append s.store A (tid :: B) none none).mp hseg0).2
  unfold linkedSeg at hmid
  rw [ht] at hmid
  obtain ⟨htprev, htnext, _⟩ := hmid
  have hprevA : ∀ c, t.prev = some c → c ∈ A := by
    intro c hc
    rw [htprev] at hc
    rcases endPrev_mem hc with h | h
    · cases h
    · exact h
  have hnextB : ∀ c, t.next = some c → c ∈ B := by
    intro c hc
    rw [htnext] at hc
    exact contHead_some_mem hc
  have hpn : ∀ x, t.prev = some x → ¬ t.next = some x := by
    intro x hp hn
    exact hd3.2.2 (hprevA x hp) (List.mem_cons_of_mem _ (hnextB x hn))
  simp only [remove_hash, hhead] at he
  cases hu1 : updO stH t.prev (fun u => { u with next := t.next }) with
  | none =>
    rw [hu1] at he
    cases he
  | some st3 =>
    simp only [hu1] at he
    cases hu2 : updO st3 t.next (fun u => { u with prev := t.prev }) with
    | none =>
      rw [hu2] at he
      cases he
    | some st4 =>
      simp only [hu2] at he
      obtain ⟨hk3, hl3⟩ := updO_spec hu1
      obtain ⟨hk4, hl4'⟩ := updO_spec hu2
      have hlook4 : ∀ x,
          lookupA st4 x
            = if t.prev = some x then (lookupA stH x).map (fun u => { u with next := t.next })
              else if t.next = some x
                then (lookupA stH x).map (fun u => { u with prev := t.prev })
              else lookupA stH x := by
        intro x
        rw [hl4' x]
        by_cases hn : t.next = some x
        · have hp : ¬ t.prev = some x := fun hp => hpn x hp hn
          rw [if_pos hn, hl3 x, if_neg hp, if_neg hp, if_pos hn]
        · rw [if_neg hn, hl3 x]
          by_cases hp : t.prev = some x
          · rw [if_pos hp, if_pos hp]
          · rw [if_neg hp, if_neg hp, if_neg hn]
      have hkeys4 : st4.map Prod.fst = s.store.map Prod.fst := (hk4.trans hk3).trans hkeys2
      have htok4 : ∀ x, (lookupA st4 x).map Timer.token
          = (lookupA s.store x).map Timer.token := by
        intro x
        rw [hlook4 x, ← sameShape_token hshape2 x]
        split_ifs <;> cases lookupA stH x <;> rfl
      have htime4 : ∀ x, (lookupA st4 x).map Timer.time
          = (lookupA s.store x).map Timer.time := by
        intro x
        rw [hlook4 x, ← sameShape_time hshape2 x]
        split_ifs <;> cases lookupA stH x <;> rfl
      have hhidx4 : ∀ x, (lookupA st4 x).map Timer.heap_index
          = (lookupA stH x).map Timer.heap_index := by
        intro x
        rw [hlook4 x]
        split_ifs <;> cases lookupA stH x <;> rfl
      obtain ⟨t2, ht2, ht2p, ht2n, ht2tk, ht2tm⟩ := sameShape_lookup hshape2 ht
      have hlk2 : linked stH none (A ++ tid :: B) := linked_of_sameShape hshape2 hlk0'
      have hlookS : ∀ x, x ≠ tid →
          lookupA st4 x
            = if t2.prev = some x
                then (lookupA stH x).map (fun u => { u with next := t2.next })
              else if t2.next = some x
                then (lookupA stH x).map (fun u => { u with prev := t2.prev })
              else lookupA stH x := by
        intro x _
        rw [ht2p, ht2n]
        exact hlook4 x
      obtain ⟨hlinked4, _, _⟩ := linked_splice ht2 hlk2 hndAB hlookS
      have herase : (spine s t.token).erase tid = A ++ B := by
        rw [hAB, List.erase_append_right _ htidA, List.erase_cons_head]
      have hheadA : (spine s t.token).head? = some tid → A = [] := by
        intro hh
        cases hA : A with
        | nil => rfl
        | cons a A'' =>
          exfalso
          rw [hAB, hA] at hh
          have ha : a = tid := by simpa using hh
          apply htidA
          rw [hA, ha]
          exact List.mem_cons_self _ _
      have hK13 : (spine s t.token).head? = some tid
          → t.next = ((spine s t.token).erase tid).head? := by
        intro hh
        rw [herase, hheadA hh, List.nil_append, htnext, contHead_none]
      have hmemsp_ne : ∀ tk2, tk2 ≠ t.token → ∀ x ∈ spine s tk2,
          ¬ t.prev = some x ∧ ¬ t.next = some x := by
        intro tk2 hne2 x hx
        obtain ⟨u1, hu1, hu1tk⟩ := mem_spine_live hx
        have hxAB : x ∉ A ++ tid :: B := by
          intro hc
          have hx2 : x ∈ spine s t.token := by
            rw [hAB]
            exact hc
          obtain ⟨u2, hu2, hu2tk⟩ := mem_spine_live hx2
          have hu12 : u1 = u2 := Option.some_inj.mp (hu1.symm.trans hu2)
          exact hne2 (by rw [← hu1tk, hu12, hu2tk])
        constructor
        · intro hc
          exact hxAB (List.mem_append.mpr (Or.inl (hprevA x hc)))
        · intro hc
          exact hxAB (List.mem_append.mpr (Or.inr (List.mem_cons_of_mem _ (hnextB x hc))))
      have hK10_other : ∀ tk2 v2, tk2 ≠ t.token → lookupA s.timers tk2 = some v2 →
          (spine s tk2).erase tid ≠ [] ∧ ((spine s tk2).erase tid).head? = some v2
            ∧ linked st4 none ((spine s tk2).erase tid) := by
        intro tk2 v2 hne2 hl
        have hpair2 : (tk2, v2) ∈ s.timers := lookupA_mem hl
        obtain ⟨hne', hhd', hlk'⟩ := h7 _ hpair2
        have htid_not : tid ∉ spine s tk2 := by
          intro hc
          obtain ⟨u, hu, hutk⟩ := mem_spine_live hc
          have hut : u = t := Option.some_inj.mp (hu.symm.trans ht)
          exact hne2 (by rw [← hutk, hut])
        have hera : (spine s tk2).erase tid = spine s tk2 := List.erase_of_not_mem htid_not
        rw [hera]
        refine ⟨hne', hhd', ?_⟩
        have hlkH : linked stH none (spine s tk2) := linked_of_sameShape hshape2 hlk'
        refine linked_congr_on ?_ hlkH
        intro x hx
        obtain ⟨hp, hn⟩ := hmemsp_ne tk2 hne2 x hx
        rw [hlook4 x, if_neg hp, if_neg hn]
      have hK11core : ∀ x u, x ≠ tid → lookupA st4 x = some u
          → u.token ∈ s.timers.map Prod.fst := by
        intro x u _ hxu
        have hmap := htok4 x
        rw [hxu] at hmap
        cases hx0 : lookupA s.store x with
        | none =>
          rw [hx0] at hmap
          cases hmap
        | some u0 =>
          rw [hx0] at hmap
          have hu0 : u.token = u0.token := by simpa using hmap
          have hxks : x ∈ storeKeys s := (lookupA_isSome_iff _ _).mp (by rw [hx0]; rfl)
          rw [hu0]
          exact h8 x hxks u0 hx0
      have hsame_tok : ∀ x u, lookupA st4 x = some u
          → ∃ u0, lookupA s.store x = some u0 ∧ u0.token = u.token := by
        intro x u hxu
        have hmap := htok4 x
        rw [hxu] at hmap
        cases hx0 : lookupA s.store x with
        | none =>
          rw [hx0] at hmap
          cases hmap
        | some u0 =>
          rw [hx0] at hmap
          exact ⟨u0, rfl, by simpa using hmap.symm⟩
      by_cases hht : headId = tid
      · have hA : A = [] := by
          refine hheadA ?_
          rw [← hht]
          exact hhd0
        cases hbn : t.next with
        | none =>
          have hB : B = [] := by
            have hcb : contHead B none = none := by
              rw [← htnext]
              exact hbn
            cases hBc : B with
            | nil => rfl
            | cons b B' =>
              rw [hBc] at hcb
              cases hcb
          have hif : (if headId = tid then t.next else some headId) = none := by
            rw [if_pos hht]
            exact hbn
          simp only [hif] at he
          cases he
          refine ⟨rfl, rfl, rfl, hkeys4, htok4, htime4, hhidx4, ?_, ?_, ?_, ?_, ?_⟩
          · show ((eraseA s.timers t.token).map Prod.fst).Nodup
            rw [keys_eraseA]
            exact h6.erase _
          · intro tk2 htk2
            have htk2a : tk2 ∈ (eraseA s.timers t.token).map Prod.fst := htk2
            rw [keys_eraseA] at htk2a
            exact List.mem_of_mem_erase htk2a
          · intro p hp
            obtain ⟨tk2, v2⟩ := p
            show (spine s tk2).erase tid ≠ [] ∧ ((spine s tk2).erase tid).head? = some v2
              ∧ linked st4 none ((spine s tk2).erase tid)
            have hndE : ((eraseA s.timers t.token).map Prod.fst).Nodup := by
              rw [keys_eraseA]
              exact h6.erase _
            have hlp : lookupA (eraseA s.timers t.token) tk2 = some v2 :=
              mem_lookupA hndE hp
            by_cases htk2 : tk2 = t.token
            · rw [htk2, lookupA_eraseA_self _ _ h6] at hlp
              cases hlp
            · rw [lookupA_eraseA_ne _ _ _ htk2] at hlp
              exact hK10_other tk2 v2 htk2 hlp
          · intro x u hx hxu
            have hmem := hK11core x u hx hxu
            show u.token ∈ (eraseA s.timers t.token).map Prod.fst
            rw [keys_eraseA]
            refine (List.mem_erase_of_ne ?_).mpr hmem
            intro hut
            obtain ⟨u0, hu0l, hu0tk⟩ := hsame_tok x u hxu
            have hxsp : x ∈ spine s u0.token := live_mem_spine hINVc hu0l
            rw [hu0tk, hut] at hxsp
            rw [hAB, hA, hB] at hxsp
            simp only [List.nil_append] at hxsp
            exact hx (by simpa using hxsp)
          · intro hh
            rw [← hbn]
            exact hK13 hh
        | some nb =>
          have hif : (if headId = tid then t.next else some headId) = some nb := by
            rw [if_pos hht]
            exact hbn
          simp only [hif] at he
          cases he
          have hBnb : B.head? = some nb := by
            rw [← contHead_none, ← htnext, hbn]
          refine ⟨rfl, rfl, rfl, hkeys4, htok4, htime4, hhidx4, ?_, ?_, ?_, ?_, ?_⟩
          · show ((setA s.timers t.token nb).map Prod.fst).Nodup
            rw [keys_setA]
            exact h6
          · intro tk2 htk2
            have htk2a : tk2 ∈ (setA s.timers t.token nb).map Prod.fst := htk2
            rw [keys_setA] at htk2a
            exact htk2a
          · intro p hp
            obtain ⟨tk2, v2⟩ := p
            show (spine s tk2).erase tid ≠ [] ∧ ((spine s tk2).erase tid).head? = some v2
              ∧ linked st4 none ((spine s tk2).erase tid)
            have hndE : ((setA s.timers t.token nb).map Prod.fst).Nodup := by
              rw [keys_setA]
              exact h6
            have hlp : lookupA (setA s.timers t.token nb) tk2 = some v2 :=
              mem_lookupA hndE hp
            rw [lookupA_setA] at hlp
            by_cases htk2 : tk2 = t.token
            · rw [if_pos htk2, hhead] at hlp
              have hv2 : v2 = nb := by simpa using hlp.symm
              subst hv2
              rw [htk2, herase, hA, List.nil_append]
              refine ⟨?_, hBnb, ?_⟩
              · intro hc
                rw [hc] at hBnb
                cases hBnb
              · have hl4 := hlinked4
                rw [hA, List.nil_append] at hl4
                exact hl4
            · rw [if_neg htk2] at hlp
              exact hK10_other tk2 v2 htk2 hlp
          · intro x u hx hxu
            show u.token ∈ (setA s.timers t.token nb).map Prod.fst
            rw [keys_setA]
            exact hK11core x u hx hxu
          · intro hh
            rw [← hbn]
            exact hK13 hh
      · have hif : (if headId = tid then t.next else some headId) = some headId :=
          if_neg hht
        simp only [hif] at he
        cases he
        obtain ⟨A2, hA⟩ : ∃ A2, A = headId :: A2 := by
          cases hAc : A with
          | nil =>
            exfalso
            rw [hAB, hAc] at hhd0
            simp only [List.nil_append] at hhd0
            have htd : tid = headId := by simpa using hhd0
            exact hht htd.symm
          | cons a A2 =>
            rw [hAB, hAc] at hhd0
            have ha : a = headId := by simpa using hhd0
            exact ⟨A2, by simp [hAc, ha]⟩
        refine ⟨rfl, rfl, rfl, hkeys4, htok4, htime4, hhidx4, ?_, ?_, ?_, ?_, hK13⟩
        · show ((setA s.timers t.token headId).map Prod.fst).Nodup
          rw [keys_setA]
          exact h6
        · intro tk2 htk2
          have htk2a : tk2 ∈ (setA s.timers t.token headId).map Prod.fst := htk2
          rw [keys_setA] at htk2a
          exact htk2a
        · intro p hp
          obtain ⟨tk2, v2⟩ := p
          show (spine s tk2).erase tid ≠ [] ∧ ((spine s tk2).erase tid).head? = some v2
            ∧ linked st4 none ((spine s tk2).erase tid)
          have hndE : ((setA s.timers t.token headId).map Prod.fst).Nodup := by
            rw [keys_setA]
            exact h6
          have hlp : lookupA (setA s.timers t.token headId) tk2 = some v2 :=
            mem_lookupA hndE hp
          rw [lookupA_setA] at hlp
          by_cases htk2 : tk2 = t.token
          · rw [if_pos htk2, hhead] at hlp
            have hv2 : v2 = headId := by simpa using hlp.symm
            subst hv2
            rw [htk2, herase, hA]
            refine ⟨by simp, by simp, ?_⟩
            have hl4 := hlinked4
            rw [hA] at hl4
            exact hl4
          · rw [if_neg htk2] at hlp
            exact hK10_other tk2 v2 htk2 hlp
        · intro x u hx hxu
          show u.token ∈ (setA s.timers t.token headId).map Prod.fst
          rw [keys_setA]
          exact hK11core x u hx hxu

theorem remove_spec (cmp : Int → Int → Bool) {s s1 : QState} {tid : Nat} {t : Timer}
    (hINV : INV s) (ht : lookupA s.store tid = some t)
    (hrm : remove_timer cmp s tid = some s1) :
    s1.nextId = s.nextId ∧ s1.events = s.events
      ∧ s1.store.map Prod.fst = s.store.map Prod.fst
      ∧ (∀ x, (lookupA s1.store x).map Timer.token = (lookupA s.store x).map Timer.token)
      ∧ (∀ x, (lookupA s1.store x).map Timer.time = (lookupA s.store x).map Timer.time)
      ∧ HeapOK s1.store s1.heap
      ∧ (∀ x, x ∈ s1.heap ↔ x ∈ s.heap ∧ x ≠ tid)
      ∧ s1.heap.length = s.heap.length - 1
      ∧ (s1.timers.map Prod.fst).Nodup
      ∧ (∀ tk, tk ∈ s1.timers.map Prod.fst → tk ∈ s.timers.map Prod.fst)
      ∧ (∀ p ∈ s1.timers, (spine s p.1).erase tid ≠ []
          ∧ ((spine s p.1).erase tid).head? = some p.2
          ∧ linked s1.store none ((spine s p.1).erase tid))
      ∧ (∀ x u, x ≠ tid → lookupA s1.store x = some u → u.token ∈ s1.timers.map Prod.fst)
      ∧ ((spine s t.token).head? = some tid
          → t.next = ((spine s t.token).erase tid).head?) := by
  simp only [remove_timer, ht] at hrm
  cases hhp : remove_heap cmp s.store s.heap t with
  | none =>
    rw [hhp] at hrm
    cases hrm
  | some pr =>
    obtain ⟨stH, hH⟩ := pr
    simp only [hhp] at hrm
    obtain ⟨hkeysH, hshapeH, hokH, hmemH, hlenH⟩ := remove_heap_spec cmp hINV ht hhp
    obtain ⟨r1, r2, r3, r4, r5, r6, r7, r8, r9, r10, r11, r12⟩ :=
      remove_hash_spec hINV ht hkeysH hshapeH hrm
    refine ⟨r1, r2, r4, r5, r6, ?_, ?_, ?_, r8, r9, r10, r11, r12⟩
    · rw [r3]
      obtain ⟨ndH, liveH, cacheH⟩ := hokH
      refine ⟨ndH, ?_, ?_⟩
      · intro x hx
        have hsome : (lookupA stH x).isSome = true := liveH x hx
        cases hl : lookupA s1.store x with
        | none =>
          exfalso
          have h7x := r7 x
          rw [hl] at h7x
          cases hl2 : lookupA stH x with
          | none =>
            rw [hl2] at hsome
            cases hsome
          | some u =>
            rw [hl2] at h7x
            cases h7x
        | some u => rfl
      · intro n hn
        have hc := cacheH n hn
        cases hgn : hH[n]? with
        | none =>
          rw [hgn] at hc
          cases hc
        | some id =>
          rw [hgn] at hc
          simp only [Option.some_bind] at hc ⊢
          rw [r7 id]
          exact hc
    · intro x
      rw [r3]
      exact hmemH x
    · rw [r3, hlenH]

theorem remove_delete_INV (cmp : Int → Int → Bool) {s s1 s2 : QState} {tid : Nat}
    {t : Timer} (hINV : INV s) (ht : lookupA s.store tid = some t)
    (hrm : remove_timer cmp s tid = some s1) (e : Ev)
    (hid : evId e = tid) (hterm : isTerm e = true)
    (hs2 : s2 = { s1 with events := s1.events ++ [e], store := eraseA s1.store tid }) :
    INV s2
      ∧ (∀ tk, spine s2 tk = (spine s tk).erase tid)
      ∧ (∀ x, x ∈ storeKeys s2 ↔ x ∈ storeKeys s ∧ x ≠ tid)
      ∧ (∀ x, x ∈ s2.heap ↔ x ∈ s.heap ∧ x ≠ tid)
      ∧ (s2.heap.length = s.heap.length - 1 ∧ s.heap ≠ [])
      ∧ s2.nextId = s.nextId
      ∧ s2.events = s.events ++ [e]
      ∧ (∀ x, x ≠ tid → (lookupA s2.store x).map Timer.time
            = (lookupA s.store x).map Timer.time
          ∧ (lookupA s2.store x).map Timer.token = (lookupA s.store x).map Timer.token
          ∧ (x ∈ storeKeys s2 ↔ x ∈ storeKeys s))
      ∧ ((spine s t.token).head? = some tid → t.next = (spine s2 t.token).head?) := by
  obtain ⟨h1, h2, h3, h4, h5, h6, h7, h8, h9, h10, h11⟩ := hINV
  have hINVc : INV s := ⟨h1, h2, h3, h4, h5, h6, h7, h8, h9, h10, h11⟩
  obtain ⟨r1, r2, r3, r4, r5, r6, r7, r8, r9, r10, r11, r12, r13⟩ :=
    remove_spec cmp hINVc ht hrm
  have hks : tid ∈ storeKeys s := (lookupA_isSome_iff _ _).mp (by rw [ht]; rfl)
  have hst : s2.store = eraseA s1.store tid := by rw [hs2]
  have hev : s2.events = s1.events ++ [e] := by rw [hs2]
  have htm : s2.timers = s1.timers := by rw [hs2]
  have hhp : s2.heap = s1.heap := by rw [hs2]
  have hni : s2.nextId = s1.nextId := by rw [hs2]
  have h1' : (s.store.map Prod.fst).Nodup := h1
  have hnd1 : (s1.store.map Prod.fst).Nodup := by
    rw [r3]
    exact h1'
  have hkeys2 : s2.store.map Prod.fst = (s.store.map Prod.fst).erase tid := by
    rw [hst, keys_eraseA, r3]
  have hD3 : ∀ x, x ∈ storeKeys s2 ↔ x ∈ storeKeys s ∧ x ≠ tid := by
    intro x
    unfold storeKeys
    rw [hkeys2, List.Nodup.mem_erase_iff h1']
    exact ⟨fun hp => ⟨hp.2, hp.1⟩, fun hp => ⟨hp.2, hp.1⟩⟩
  have hlookup2 : ∀ x, x ≠ tid → lookupA s2.store x = lookupA s1.store x := by
    intro x hx
    rw [hst]
    exact lookupA_eraseA_ne _ _ _ hx
  have hlookup2tid : lookupA s2.store tid = none := by
    rw [hst]
    exact lookupA_eraseA_self _ _ hnd1
  have hD8 : ∀ x, x ≠ tid → (lookupA s2.store x).map Timer.time
        = (lookupA s.store x).map Timer.time
      ∧ (lookupA s2.store x).map Timer.token = (lookupA s.store x).map Timer.token
      ∧ (x ∈ storeKeys s2 ↔ x ∈ storeKeys s) := by
    intro x hx
    refine ⟨?_, ?_, ?_⟩
    · rw [hlookup2 x hx, r5 x]
    · rw [hlookup2 x hx, r4 x]
    · rw [hD3 x]
      exact ⟨fun hp => hp.1, fun hp => ⟨hp, hx⟩⟩
  have henq2 : enqIds s2.events = enqIds s.events := by
    rw [hev, r2, enqIds_append, enqIds_single_term hterm, List.append_nil]
  have hD2 : ∀ tk, spine s2 tk = (spine s tk).erase tid := by
    intro tk
    unfold spine
    rw [henq2]
    refine filter_erase_of_ne (List.nodup_reverse.mpr (INV_enqIds_nodup hINVc)) ?_ ?_
    · intro x hx
      rw [decide_eq_decide, (hD8 x hx).2.1]
    · rw [decide_eq_false_iff_not, hlookup2tid]
      simp
  have hD4 : ∀ x, x ∈ s2.heap ↔ x ∈ s.heap ∧ x ≠ tid := by
    intro x
    rw [hhp]
    exact r7 x
  have hmemsp_erase : ∀ tk x, x ∈ (spine s tk).erase tid → x ≠ tid := by
    intro tk x hx
    exact ((List.Nodup.mem_erase_iff (INV_spine_nodup hINVc tk)).mp hx).1
  refine ⟨⟨?_, ?_, ?_, ?_, ?_, ?_, ?_, ?_, ?_, ?_, ?_⟩, hD2, hD3, hD4, ?_, ?_, ?_, hD8, ?_⟩
  · show (s2.store.map Prod.fst).Nodup
    rw [hkeys2]
    exact h1'.erase _
  · rw [hhp]
    exact r6.1
  · intro x hx
    rw [hD3 x]
    rw [hD4 x] at hx
    exact ⟨h3 x hx.1, hx.2⟩
  · intro x hx
    rw [hD4 x]
    rw [hD3 x] at hx
    exact ⟨h4 x hx.1, hx.2⟩
  · intro i hi
    rw [hhp] at hi ⊢
    have hc := r6.2.2 i hi
    cases hgn : s1.heap[i]? with
    | none =>
      rw [hgn] at hc
      cases hc
    | some id =>
      rw [hgn] at hc
      simp only [Option.some_bind] at hc ⊢
      have hidt : id ≠ tid := by
        have hmem : id ∈ s1.heap := List.getElem?_mem hgn
        exact ((r7 id).mp hmem).2
      rw [hlookup2 id hidt]
      exact hc
  · rw [htm]
    exact r9
  · intro p hp
    rw [htm] at hp
    obtain ⟨hne', hhd', hlk'⟩ := r11 p hp
    rw [hD2 p.1]
    refine ⟨hne', hhd', ?_⟩
    refine linked_congr_on ?_ hlk'
    intro x hx
    exact hlookup2 x (hmemsp_erase p.1 x hx)
  · intro x hx u hxu
    rw [htm]
    have hxt : x ≠ tid := ((hD3 x).mp hx).2
    rw [hlookup2 x hxt] at hxu
    exact r12 x u hxt hxu
  · intro id hidr
    rw [hni, r1] at hidr
    obtain ⟨he1, he2, he3⟩ := h9 id hidr
    have henqc : enqCount s2.events id = enqCount s.events id := by
      rw [hev, r2, enqCount_append, enqCount_term hterm]
      omega
    have htc2 : termCount s2.events id
        = termCount s.events id + (if tid = id then 1 else 0) := by
      rw [hev, r2, termCount_append, termCount_single hterm, hid]
    by_cases hidt : id = tid
    · subst hidt
      have htc0 : termCount s.events id = 0 := he3.mpr hks
      refine ⟨henqc.trans he1, ?_, ?_⟩
      · rw [htc2, htc0, if_pos rfl]
      · rw [htc2, htc0, if_pos rfl]
        constructor
        · intro hcon
          exact absurd hcon (by omega)
        · intro hmem2
          exact absurd ((hD3 id).mp hmem2).2 (fun hh => hh rfl)
    · have hne' : ¬ tid = id := fun hh => hidt hh.symm
      refine ⟨henqc.trans he1, ?_, ?_⟩
      · rw [htc2, if_neg hne']
        omega
      · rw [htc2, if_neg hne', Nat.add_zero, he3, hD3 id]
        exact ⟨fun hp => ⟨hp, hidt⟩, fun hp => hp.1⟩
  · intro ev hev2
    rw [hev, r2] at hev2
    rw [hni, r1]
    rcases List.mem_append.mp hev2 with hold | hnew
    · exact h10 ev hold
    · have : ev = e := by simpa using hnew
      rw [this, hid]
      exact h11 tid hks
  · intro id hidm
    rw [hni, r1]
    exact h11 id ((hD3 id).mp hidm).1
  · refine ⟨?_, List.ne_nil_of_mem (h4 tid hks)⟩
    rw [hhp]
    exact r8
  · rw [hni, r1]
  · rw [hev, r2]
  · intro hh
    rw [hD2 t.token]
    exact r13 hh

theorem dispatchLoop_spec (cmp : Int → Int → Bool) :
    ∀ (fuel : Nat) (s : QState) (now : Int) (s' : QState), INV s →
      dispatchLoop cmp fuel s now = some s' →
      INV s'
        ∧ ∃ fired : List (Nat × Int),
            s'.events = s.events ++ fired.map (fun p => Ev.fire p.1 p.2)
            ∧ (∀ p ∈ fired, cmp p.2 now = true ∧ p.1 ∈ s.heap
                ∧ (lookupA s.store p.1).map Timer.time = some p.2)
            ∧ (∀ x, x ∈ s'.heap ↔ x ∈ s.heap ∧ x ∉ fired.map Prod.fst)
            ∧ (∀ x, x ∉ fired.map Prod.fst →
                (lookupA s'.store x).map Timer.time = (lookupA s.store x).map Timer.time
                ∧ (lookupA s'.store x).map Timer.token
                    = (lookupA s.store x).map Timer.token
                ∧ (x ∈ storeKeys s' ↔ x ∈ storeKeys s)) := by
  intro fuel
  induction fuel with
  | zero =>
    intro s now s' _ he
    simp [dispatchLoop] at he
  | succ fuel ih =>
    intro s now s' hINV he
    simp only [dispatchLoop] at he
    cases hhd : s.heap.head? with
    | none =>
      rw [hhd] at he
      have hs' : s = s' := Option.some_inj.mp he
      subst hs'
      exact ⟨hINV, [], by simp, by simp, by intro x; simp,
        by intro x _; exact ⟨rfl, rfl, Iff.rfl⟩⟩
    | some rootId =>
      simp only [hhd] at he
      cases hlk : lookupA s.store rootId with
      | none =>
        rw [hlk] at he
        cases he
      | some t =>
        simp only [hlk] at he
        by_cases hcmp : cmp t.time now = true
        · rw [if_pos hcmp] at he
          cases hrm : remove_timer cmp s rootId with
          | none =>
            rw [hrm] at he
            cases he
          | some s1 =>
            simp only [hrm] at he
            obtain ⟨hINV2, hD2, hD3, hD4, hD5, hD6, hD7, hD8, hD9⟩ :=
              remove_delete_INV cmp hINV hlk hrm (Ev.fire rootId t.time) rfl rfl rfl
            obtain ⟨hINV', fired', hev', hfire', hheap', hpres'⟩ :=
              ih _ now s' hINV2 he
            have hroot_mem : rootId ∈ s.heap := by
              cases hh : s.heap with
              | nil =>
                rw [hh] at hhd
                cases hhd
              | cons a rest =>
                rw [hh] at hhd
                have ha : a = rootId := by simpa using hhd
                rw [← ha]
                exact List.mem_cons_self _ _
            refine ⟨hINV', (rootId, t.time) :: fired', ?_, ?_, ?_, ?_⟩
            · rw [hev', hD7]
              simp only [List.map_cons, List.append_assoc, List.singleton_append]
            · intro p hp
              rcases List.mem_cons.mp hp with hp1 | hp2
              · subst hp1
                refine ⟨hcmp, hroot_mem, ?_⟩
                show (lookupA s.store rootId).map Timer.time = some t.time
                rw [hlk]
                rfl
              · obtain ⟨hc', hmem', htime'⟩ := hfire' p hp2
                refine ⟨hc', ((hD4 p.1).mp hmem').1, ?_⟩
                have hne : p.1 ≠ rootId := ((hD4 p.1).mp hmem').2
                rw [← (hD8 p.1 hne).1]
                exact htime'
            · intro x
              rw [hheap' x, hD4 x]
              simp only [List.map_cons, List.mem_cons]
              constructor
              · rintro ⟨⟨hxs, hxr⟩, hxf⟩
                refine ⟨hxs, ?_⟩
                intro hc
                rcases hc with hc | hc
                · exact hxr hc
                · exact hxf hc
              · rintro ⟨hxs, hnot⟩
                exact ⟨⟨hxs, fun hc => hnot (Or.inl hc)⟩, fun hc => hnot (Or.inr hc)⟩
            · intro x hxf
              have hxr : x ≠ rootId := fun hc => hxf (by simp [hc])
              have hxf' : x ∉ fired'.map Prod.fst := fun hc => hxf (by simp [hc])
              obtain ⟨ht', htk', hk'⟩ := hpres' x hxf'
              obtain ⟨hti, htk2, hks2⟩ := hD8 x hxr
              exact ⟨ht'.trans hti, htk'.trans htk2, hk'.trans hks2⟩
        · rw [if_neg hcmp] at he
          have hs' : s = s' := Option.some_inj.mp he
          subst hs'
          exact ⟨hINV, [], by simp, by simp, by intro x; simp,
            by intro x _; exact ⟨rfl, rfl, Iff.rfl⟩⟩

theorem cancelChain_spec (cmp : Int → Int → Bool) :
    ∀ (fuel : Nat) (s : QState) (tk : Nat) (s' : QState), INV s →
      cancelChain cmp fuel s ((spine s tk).head?) = some s' →
      INV s'
        ∧ s'.events = s.events
            ++ (spine s tk).map
                (fun id => Ev.canc id (((lookupA s.store id).map Timer.time).getD 0))
        ∧ (∀ x, x ∈ storeKeys s' ↔ x ∈ storeKeys s ∧ x ∉ spine s tk)
        ∧ (∀ x, x ∈ s'.heap ↔ x ∈ s.heap ∧ x ∉ spine s tk)
        ∧ (∀ x, x ∉ spine s tk →
            (lookupA s'.store x).map Timer.time = (lookupA s.store x).map Timer.time
            ∧ (lookupA s'.store x).map Timer.token
                = (lookupA s.store x).map Timer.token) := by
  intro fuel
  induction fuel with
  | zero =>
    intro s tk s' hINV he
    cases hsp : spine s tk with
    | nil =>
      rw [hsp] at he
      simp only [List.head?_nil] at he
      have hs' : s = s' := Option.some_inj.mp he
      subst hs'
      exact ⟨hINV, by simp, by intro x; simp, by intro x; simp,
        by intro x _; exact ⟨rfl, rfl⟩⟩
    | cons tid rest =>
      rw [hsp] at he
      simp [cancelChain] at he
  | succ fuel ih =>
    intro s tk s' hINV he
    cases hsp : spine s tk with
    | nil =>
      rw [hsp] at he
      simp only [List.head?_nil] at he
      have hs' : s = s' := Option.some_inj.mp he
      subst hs'
      exact ⟨hINV, by simp, by intro x; simp, by intro x; simp,
        by intro x _; exact ⟨rfl, rfl⟩⟩
    | cons tid rest =>
      rw [hsp] at he
      simp only [List.head?_cons] at he
      obtain ⟨t, hlk, htk⟩ : ∃ t, lookupA s.store tid = some t ∧ t.token = tk := by
        have hmem : tid ∈ spine s tk := by
          rw [hsp]
          exact List.mem_cons_self _ _
        exact mem_spine_live hmem
      simp only [cancelChain, hlk] at he
      cases hrm : remove_timer cmp s tid with
      | none =>
        rw [hrm] at he
        cases he
      | some s1 =>
        simp only [hrm] at he
        obtain ⟨hINV2, hD2, hD3, hD4, hD5, hD6, hD7, hD8, hD9⟩ :=
          remove_delete_INV cmp hINV hlk hrm (Ev.canc tid t.time) rfl rfl
            (show cancAndDelete s1 tid t.time
              = { s1 with events := s1.events ++ [Ev.canc tid t.time],
                          store := eraseA s1.store tid } from rfl)
        have hrest : spine (cancAndDelete s1 tid t.time) tk = rest := by
          rw [hD2 tk, hsp, List.erase_cons_head]
        have hnd : (tid :: rest).Nodup := by
          rw [← hsp]
          exact INV_spine_nodup hINV tk
        have htid_rest : tid ∉ rest := (List.nodup_cons.mp hnd).1
        have hnext : t.next = (spine (cancAndDelete s1 tid t.time) tk).head? := by
          have h9' := hD9
          rw [htk] at h9'
          refine h9' ?_
          rw [hsp]
          rfl
        rw [hnext] at he
        obtain ⟨hINV', hev', hkeys', hheap', hpres'⟩ :=
          ih (cancAndDelete s1 tid t.time) tk s' hINV2 he
        refine ⟨hINV', ?_, ?_, ?_, ?_⟩
        · rw [hev', hD7, hrest]
          have hmapc : rest.map
                (fun id => Ev.canc id
                  (((lookupA (cancAndDelete s1 tid t.time).store id).map
                      Timer.time).getD 0))
              = rest.map
                (fun id => Ev.canc id (((lookupA s.store id).map Timer.time).getD 0)) := by
            refine List.map_congr_left ?_
            intro id hid
            have hne : id ≠ tid := fun hh => htid_rest (hh ▸ hid)
            rw [(hD8 id hne).1]
          rw [hmapc, List.append_assoc, List.singleton_append]
          simp only [List.map_cons]
          have htt : ((lookupA s.store tid).map Timer.time).getD 0 = t.time := by
            rw [hlk]
            rfl
          rw [htt]
        · intro x
          rw [hkeys' x, hrest, hD3 x, List.mem_cons]
          constructor
          · rintro ⟨⟨hxs, hxt⟩, hxr⟩
            exact ⟨hxs, fun hc => hc.elim hxt hxr⟩
          · rintro ⟨hxs, hnot⟩
            exact ⟨⟨hxs, fun hc => hnot (Or.inl hc)⟩, fun hc => hnot (Or.inr hc)⟩
        · intro x
          rw [hheap' x, hrest, hD4 x, List.mem_cons]
          constructor
          · rintro ⟨⟨hxs, hxt⟩, hxr⟩
            exact ⟨hxs, fun hc => hc.elim hxt hxr⟩
          · rintro ⟨hxs, hnot⟩
            exact ⟨⟨hxs, fun hc => hnot (Or.inl hc)⟩, fun hc => hnot (Or.inr hc)⟩
        · intro x hx
          have hxt : x ≠ tid := fun hc => hx (by rw [hc]; exact List.mem_cons_self _ _)
          have hxr : x ∉ rest := fun hc => hx (List.mem_cons_of_mem _ hc)
          obtain ⟨ha, hb⟩ := hpres' x (by rw [hrest]; exact hxr)
          obtain ⟨hc1, hc2, _⟩ := hD8 x hxt
          exact ⟨ha.trans hc1, hb.trans hc2⟩

theorem cancel_timer_spec (cmp : Int → Int → Bool) {s s' : QState} {tk : Nat}
    (hINV : INV s) (he : cancel_timer cmp s tk = some s') :
    INV s'
      ∧ s'.events = s.events
          ++ (spine s tk).map
              (fun id => Ev.canc id (((lookupA s.store id).map Timer.time).getD 0))
      ∧ (∀ x, x ∈ storeKeys s' ↔ x ∈ storeKeys s ∧ x ∉ spine s tk)
      ∧ (∀ x, x ∈ s'.heap ↔ x ∈ s.heap ∧ x ∉ spine s tk)
      ∧ spine s' tk = []
      ∧ tk ∉ s'.timers.map Prod.fst
      ∧ (lookupA s.timers tk = none → s' = s) := by
  obtain ⟨h1, h2, h3, h4, h5, h6, h7, h8, h9, h10, h11⟩ := hINV
  have hINVc : INV s := ⟨h1, h2, h3, h4, h5, h6, h7, h8, h9, h10, h11⟩
  simp only [cancel_timer] at he
  cases hbk : lookupA s.timers tk with
  | none =>
    rw [hbk] at he
    have hs' : s = s' := Option.some_inj.mp he
    subst hs'
    have hspn : spine s tk = [] := by
      rw [List.eq_nil_iff_forall_not_mem]
      intro x hx
      obtain ⟨u, hu, hutk⟩ := mem_spine_live hx
      have hcov := h8 x ((lookupA_isSome_iff _ _).mp (by rw [hu]; rfl)) u hu
      rw [hutk] at hcov
      exact absurd hcov (by rwa [← lookupA_eq_none_iff])
    refine ⟨hINVc, by rw [hspn]; simp, ?_, ?_, hspn, ?_, fun _ => rfl⟩
    · intro x
      rw [hspn]
      simp
    · intro x
      rw [hspn]
      simp
    · rw [← lookupA_eq_none_iff]
      exact hbk
  | some head =>
    simp only [hbk] at he
    have hpair : (tk, head) ∈ s.timers := lookupA_mem hbk
    obtain ⟨hne0, hhd0, _⟩ := h7 _ hpair
    have hhd : (spine s tk).head? = some head := hhd0
    rw [← hhd] at he
    obtain ⟨hINV', hev', hkeys', hheap', hpres'⟩ :=
      cancelChain_spec cmp (s.store.length + 1) s tk s' hINVc he
    have hspn' : spine s' tk = [] := by
      rw [List.eq_nil_iff_forall_not_mem]
      intro x hx
      obtain ⟨u, hu, hutk⟩ := mem_spine_live hx
      have hks' : x ∈ storeKeys s' := (lookupA_isSome_iff _ _).mp (by rw [hu]; rfl)
      obtain ⟨hxs, hxsp⟩ := (hkeys' x).mp hks'
      have htokp := (hpres' x hxsp).2
      rw [hu] at htokp
      cases hx0 : lookupA s.store x with
      | none =>
        rw [hx0] at htokp
        cases htokp
      | some u0 =>
        rw [hx0] at htokp
        have hu0tk : u0.token = tk := by
          have : u.token = u0.token := by simpa using htokp
          rw [← this, hutk]
        have : x ∈ spine s u0.token := live_mem_spine hINVc hx0
        rw [hu0tk] at this
        exact hxsp this
    refine ⟨hINV', hev', hkeys', hheap', hspn', ?_, ?_⟩
    · intro hc
      obtain ⟨p, hp, hp1⟩ := List.mem_map.mp hc
      obtain ⟨hne2, _, _⟩ := hINV'.2.2.2.2.2.2.1 p hp
      rw [hp1, hspn'] at hne2
      exact hne2 rfl
    · intro hc
      cases hc

theorem stepQ_INV (cmp : Int → Int → Bool) {s s' : QState} {op : Op}
    (hINV : INV s) (he : stepQ cmp s op = some s') : INV s' := by
  cases op with
  | enq time tk =>
    simp only [stepQ] at he
    obtain ⟨s2, b, heq, hinv2⟩ := enqueue_pres cmp s time tk hINV
    rw [heq] at he
    have hs2 : s2 = s' := by simpa using he
    rw [← hs2]
    exact hinv2
  | dispatch now =>
    simp only [stepQ, dispatch_timers] at he
    exact (dispatchLoop_spec cmp _ s now s' hINV he).1
  | cancel tk =>
    simp only [stepQ] at he
    exact (cancel_timer_spec cmp hINV he).1

theorem foldl_INV (cmp : Int → Int → Bool) :
    ∀ (ops : List Op) (s0 s : QState), INV s0 →
      ops.foldlM (stepQ cmp) s0 = some s → INV s := by
  intro ops
  induction ops with
  | nil =>
    intro s0 s hINV he
    have hs : s0 = s := by simpa [List.foldlM] using he
    rw [← hs]
    exact hINV
  | cons op ops ih =>
    intro s0 s hINV he
    rw [List.foldlM_cons] at he
    cases hst : stepQ cmp s0 op with
    | none =>
      rw [hst] at he
      exact Option.noConfusion he
    | some s1 =>
      rw [hst] at he
      exact ih s1 s (stepQ_INV cmp hINV hst) he

theorem runQ_INV (cmp : Int → Int → Bool) {ops : List Op} {s : QState}
    (he : runQ cmp ops = some s) : INV s :=
  foldl_INV cmp ops initQ s (by decide) he

theorem term_eq_fire_add_canc (evs : List Ev) (id : Nat) :
    termCount evs id = fireCount evs id + cancCount evs id := by
  induction evs with
  | nil => rfl
  | cons e evs ih =>
    unfold termCount fireCount cancCount at ih ⊢
    rw [List.countP_cons, List.countP_cons, List.countP_cons, ih]
    cases e with
    | enq i time tk => rfl
    | fire i time =>
      by_cases hi : i = id <;> simp [isTerm, evId, hi] <;> omega
    | canc i time =>
      by_cases hi : i = id <;> simp [isTerm, evId, hi] <;> omega

theorem termCount_high (s : QState) (hINV : INV s) (id : Nat) (hid : ¬ id < s.nextId) :
    termCount s.events id = 0 := by
  obtain ⟨_, _, _, _, _, _, _, _, _, h10, _⟩ := hINV
  unfold termCount
  rw [List.countP_eq_zero]
  intro e hmem hpe
  rw [Bool.and_eq_true, beq_iff_eq] at hpe
  have := h10 e hmem
  omega

/-- C3: exactly-once termination, as far as any finite run can witness it.
Along any successful run from the empty queue: every entry receives at
most one terminal callback and never both kinds (`do_operation` and
`do_cancel` invocations sum to the terminal count, which is at most 1);
once an entry has received its terminal callback it is gone — not in the
store, not in the heap, on no token chain; and an allocated entry is
still live exactly when it has not yet received its terminal callback. -/
theorem claim3_exactly_once (cmp : Int → Int → Bool) (ops : List Op) (s : QState)
    (id : Nat) (hrun : runQ cmp ops = some s) :
    termCount s.events id ≤ 1
      ∧ termCount s.events id = fireCount s.events id + cancCount s.events id
      ∧ ¬(0 < fireCount s.events id ∧ 0 < cancCount s.events id)
      ∧ (0 < termCount s.events id →
          lookupA s.store id = none ∧ id ∉ s.heap ∧ ∀ tk, id ∉ spine s tk)
      ∧ (termCount s.events id = 0 ∧ id < s.nextId ↔ id ∈ storeKeys s) := by
  have hINV := runQ_INV cmp hrun
  obtain ⟨h1, h2, h3, h4, h5, h6, h7, h8, h9, h10, h11⟩ := hINV
  have hINVc : INV s := ⟨h1, h2, h3, h4, h5, h6, h7, h8, h9, h10, h11⟩
  have hle : termCount s.events id ≤ 1 := by
    by_cases hid : id < s.nextId
    · exact (h9 id (List.mem_range.mpr hid)).2.1
    · rw [termCount_high s hINVc id hid]
      omega
  have hsum := term_eq_fire_add_canc s.events id
  refine ⟨hle, hsum, ?_, ?_, ?_⟩
  · rintro ⟨hf, hc⟩
    omega
  · intro hpos
    have hid : id < s.nextId := by
      by_contra hid
      rw [termCount_high s hINVc id hid] at hpos
      omega
    have hnm : id ∉ storeKeys s := by
      intro hmem
      have := ((h9 id (List.mem_range.mpr hid)).2.2).mpr hmem
      omega
    have hnone : lookupA s.store id = none := (lookupA_eq_none_iff _ _).mpr hnm
    refine ⟨hnone, fun hc => hnm (h3 id hc), ?_⟩
    intro tk hc
    obtain ⟨u, hu, _⟩ := mem_spine_live hc
    rw [hnone] at hu
    cases hu
  · constructor
    · rintro ⟨htc, hid⟩
      exact ((h9 id (List.mem_range.mpr hid)).2.2).mp htc
    · intro hmem
      have hid : id < s.nextId := h11 id hmem
      exact ⟨((h9 id (List.mem_range.mpr hid)).2.2).mpr hmem, hid⟩

/-- C8: after any successful run from the empty queue, every live entry
occupies exactly one heap slot, its cached `heap_index_` is its true
position in the heap array, and it lies on exactly one token chain — the
chain of its own token, exactly once. -/
theorem claim8_cache_and_uniqueness (cmp : Int → Int → Bool) (ops : List Op)
    (s : QState) (id : Nat) (t : Timer) (hrun : runQ cmp ops = some s)
    (ht : lookupA s.store id = some t) :
    s.heap.count id = 1
      ∧ s.heap[t.heap_index]? = some id
      ∧ (∀ tk, id ∈ spine s tk ↔ tk = t.token)
      ∧ (spine s t.token).count id = 1 := by
  have hINV := runQ_INV cmp hrun
  obtain ⟨hslot, hlt⟩ := heap_slot hINV ht
  obtain ⟨h1, h2, h3, h4, h5, h6, h7, h8, h9, h10, h11⟩ := hINV
  have hINVc : INV s := ⟨h1, h2, h3, h4, h5, h6, h7, h8, h9, h10, h11⟩
  have hmem : id ∈ s.heap := h4 id ((lookupA_isSome_iff _ _).mp (by rw [ht]; rfl))
  refine ⟨List.count_eq_one_of_mem h2 hmem, hslot, ?_, ?_⟩
  · intro tk
    constructor
    · intro hsp
      obtain ⟨u, hu, hutk⟩ := mem_spine_live hsp
      have hut : u = t := Option.some_inj.mp (hu.symm.trans ht)
      rw [← hutk, hut]
    · intro htk
      rw [htk]
      exact live_mem_spine hINVc ht
  · exact List.count_eq_one_of_mem (INV_spine_nodup hINVc t.token)
      (live_mem_spine hINVc ht)

/-- C6: on a queue satisfying the invariant, a successful
`cancel_timer(token)` removes from the store and the heap exactly the
entries chained under the token, invokes `do_cancel` on each of them in
chain order — which is last-in-first-out order of insertion, since the
chain (`spine`) lists the live entries with that token most recently
enqueued first — leaves the token absent from the index, and is a no-op
when the token was not in the index.  (Success is hypothesised because
removal of a mid-chain entry can hit the out-of-bounds parent read of
claim C10, which is undefined behaviour.) -/
theorem claim6_cancel (cmp : Int → Int → Bool) (s : QState) (tk : Nat) (s' : QState)
    (hINV : INV s) (he : cancel_timer cmp s tk = some s') :
    s'.events = s.events
        ++ (spine s tk).map
            (fun id => Ev.canc id (((lookupA s.store id).map Timer.time).getD 0))
      ∧ (∀ x, x ∈ storeKeys s' ↔ x ∈ storeKeys s ∧ x ∉ spine s tk)
      ∧ (∀ x, x ∈ s'.heap ↔ x ∈ s.heap ∧ x ∉ spine s tk)
      ∧ spine s' tk = []
      ∧ tk ∉ s'.timers.map Prod.fst
      ∧ (lookupA s.timers tk = none → s' = s) := by
  obtain ⟨_, a, b, c, d, e2, f⟩ := cancel_timer_spec cmp hINV he
  exact ⟨a, b, c, d, e2, f⟩

/-- C2 (amended): a successful `dispatch_timers(now)` only ever fires
entries whose deadline satisfies `comparator(deadline, now)` — each fired
entry was pending with exactly that deadline — and every entry it does
not fire remains pending with its deadline unchanged.  (The original
claim's "fires exactly the due entries, in non-decreasing deadline
order" is refuted by `claim2_counterexample`: on a reachable corrupted
heap, dispatch stops early while a due entry remains pending, and fires
entries out of deadline order.) -/
theorem claim2_amended_fires_only_due (cmp : Int → Int → Bool) (s : QState)
    (now : Int) (s' : QState) (hINV : INV s)
    (he : dispatch_timers cmp s now = some s') :
    INV s' ∧ ∃ fired : List (Nat × Int),
      s'.events = s.events ++ fired.map (fun p => Ev.fire p.1 p.2)
      ∧ (∀ p ∈ fired, cmp p.2 now = true ∧ p.1 ∈ s.heap
          ∧ (lookupA s.store p.1).map Timer.time = some p.2)
      ∧ (∀ x, x ∈ s'.heap ↔ x ∈ s.heap ∧ x ∉ fired.map Prod.fst)
      ∧ (∀ x, x ∉ fired.map Prod.fst →
          (lookupA s'.store x).map Timer.time = (lookupA s.store x).map Timer.time) := by
  rw [dispatch_timers] at he
  obtain ⟨hINV', fired, hev, hfired, hheap, hpres⟩ :=
    dispatchLoop_spec cmp (s.heap.length + 1) s now s' hINV he
  exact ⟨hINV', fired, hev, hfired, hheap, fun x hx => (hpres x hx).1⟩

theorem enqueue_ret_iff (cmp : Int → Int → Bool) {s s' : QState} {time : Int} {tk : Nat}
    {b : Bool} (he : enqueue_timer cmp s time tk = some (s', b)) :
    b = true ↔ s'.heap.head? = some s.nextId := by
  simp only [enqueue_timer] at he
  cases hbk : lookupA s.timers tk with
  | none =>
    simp only [hbk] at he
    cases hupd : updA ((s.nextId, (⟨time, tk, none, none, sentinelIdx⟩ : Timer)) :: s.store)
        s.nextId (fun u => { u with heap_index := s.heap.length }) with
    | none =>
      rw [hupd] at he
      cases he
    | some st2 =>
      simp only [hupd] at he
      cases hup : up_heap cmp (s.heap ++ [s.nextId]).length st2 (s.heap ++ [s.nextId])
          ((s.heap ++ [s.nextId]).length - 1) with
      | none =>
        rw [hup] at he
        cases he
      | some pr =>
        obtain ⟨st3, h2⟩ := pr
        simp only [hup] at he
        cases he
        show decide (h2.head? = some s.nextId) = true ↔ h2.head? = some s.nextId
        exact decide_eq_true_iff
  | some head =>
    simp only [hbk] at he
    cases hupdh : updA s.store head (fun u => { u with prev := some s.nextId }) with
    | none =>
      rw [hupdh] at he
      cases he
    | some st1 =>
      simp only [hupdh] at he
      cases hupd : updA ((s.nextId,
          ({ time := time, token := tk, next := some head, prev := none,
             heap_index := sentinelIdx } : Timer)) :: st1)
          s.nextId (fun u => { u with heap_index := s.heap.length }) with
      | none =>
        rw [hupd] at he
        cases he
      | some st2 =>
        simp only [hupd] at he
        cases hup : up_heap cmp (s.heap ++ [s.nextId]).length st2 (s.heap ++ [s.nextId])
            ((s.heap ++ [s.nextId]).length - 1) with
        | none =>
          rw [hup] at he
          cases he
        | some pr =>
          obtain ⟨st3, h2⟩ := pr
          simp only [hup] at he
          cases he
          show decide (h2.head? = some s.nextId) = true ↔ h2.head? = some s.nextId
          exact decide_eq_true_iff

theorem up_heap_min_root (cmp : Int → Int → Bool) :
    ∀ (fuel : Nat) (st : Store) (h : List Nat) (index : Nat) (st' : Store) (h' : List Nat)
      (nid : Nat) (tn : Timer),
      h.Nodup → h[index]? = some nid → lookupA st nid = some tn →
      (∀ x ∈ h, x ≠ nid → ∃ u, lookupA st x = some u ∧ cmp tn.time u.time = true) →
      up_heap cmp fuel st h index = some (st', h') →
      h'[0]? = some nid := by
  intro fuel
  induction fuel with
  | zero =>
    intro st h index st' h' nid tn _ _ _ _ he
    simp [up_heap] at he
  | succ fuel ih =>
    intro st h index st' h' nid tn hnd hin htn hmin he
    simp only [up_heap] at he
    by_cases hidx : index > 0
    · rw [if_pos hidx] at he
      have hlen : index < h.length := (List.getElem?_eq_some_iff.mp hin).1
      have hpar : (h[index / 2]?).isSome = true := by
        rw [Option.isSome_iff_ne_none, ne_eq, List.getElem?_eq_none_iff]
        omega
      obtain ⟨pid, hpid⟩ := Option.isSome_iff_exists.mp hpar
      have hpid_ne : pid ≠ nid := by
        intro hc
        have hii : index / 2 = index :=
          nodup_getElem?_inj hnd hlen (by rw [hpid, hin, hc])
        omega
      obtain ⟨u, hu, hcmp⟩ := hmin pid (List.getElem?_mem hpid) hpid_ne
      have hA : (h[index]?).bind (lookupA st) = some tn := by
        rw [hin]
        exact htn
      have hB : (h[index / 2]?).bind (lookupA st) = some u := by
        rw [hpid]
        exact hu
      simp only [hA, hB] at he
      rw [if_pos hcmp] at he
      cases hsw : swap_heap st h index (index / 2) with
      | none =>
        rw [hsw] at he
        cases he
      | some pr =>
        obtain ⟨st1, h1⟩ := pr
        simp only [hsw] at he
        simp only [swap_heap, hin, hpid] at hsw
        cases hu1 : updA st pid (fun t => { t with heap_index := index }) with
        | none =>
          rw [hu1] at hsw
          cases hsw
        | some stA =>
          simp only [hu1] at hsw
          cases hu2 : updA stA nid (fun t => { t with heap_index := index / 2 }) with
          | none =>
            rw [hu2] at hsw
            cases hsw
          | some stB =>
            simp only [hu2] at hsw
            have hp2 := Option.some_inj.mp hsw
            have hst1 : st1 = stB := (congrArg Prod.fst hp2).symm
            have hh1 : h1 = (h.set index pid).set (index / 2) nid :=
              (congrArg Prod.snd hp2).symm
            subst hst1
            subst hh1
            have hlA : ∀ y, lookupA stA y
                = if y = pid
                  then (lookupA st pid).map (fun t => { t with heap_index := index })
                  else lookupA st y := fun y => lookupA_updA hu1 y
            have hlB : ∀ y, lookupA st1 y
                = if y = nid
                  then (lookupA stA nid).map (fun t => { t with heap_index := index / 2 })
                  else lookupA stA y := fun y => lookupA_updA hu2 y
            have htn1 : lookupA st1 nid = some { tn with heap_index := index / 2 } := by
              rw [hlB, if_pos rfl, hlA, if_neg (fun hc => hpid_ne hc.symm), htn]
              rfl
            have hnd1 := nodup_swapL hnd hin hpid
            have hin1 : ((h.set index pid).set (index / 2) nid)[index / 2]? = some nid := by
              rw [getElem?_swapL hin hpid, if_pos rfl]
            have hmin1 : ∀ x ∈ (h.set index pid).set (index / 2) nid, x ≠ nid →
                ∃ u2, lookupA st1 x = some u2
                  ∧ cmp ({ tn with heap_index := index / 2 } : Timer).time u2.time
                      = true := by
              intro x hx hxn
              have hxh : x ∈ h := (mem_swapL hin hpid x).mp hx
              obtain ⟨u2, hu2', hc2⟩ := hmin x hxh hxn
              rw [hlB, if_neg hxn, hlA]
              by_cases hxp : x = pid
              · rw [if_pos hxp]
                rw [hxp] at hu2'
                rw [hu2']
                exact ⟨{ u2 with heap_index := index }, rfl, hc2⟩
              · rw [if_neg hxp]
                exact ⟨u2, hu2', hc2⟩
            exact ih st1 _ (index / 2) st' h' nid { tn with heap_index := index / 2 }
              hnd1 hin1 htn1 hmin1 he
    · rw [if_neg hidx] at he
      have h0 : index = 0 := by omega
      have hp := Option.some_inj.mp he
      have hh : h = h' := congrArg Prod.snd hp
      rw [← hh, ← h0]
      exact hin

/-- C4 (amended): the Boolean returned by `enqueue_timer` reports whether
the new entry ended up in the heap root slot, not whether it has the
minimum deadline: on a corrupted reachable heap, or on a tie, the two
differ (`claim4_counterexample` shows a second entry with the same —
hence minimal — deadline getting `false`).  When the new deadline sorts
strictly before every pending deadline the new entry does reach the root
and the call returns `true`, and the spec's own 5-2-8 scenario holds. -/
theorem claim4_amended (cmp : Int → Int → Bool) (s : QState) (time : Int) (tk : Nat)
    (hINV : INV s)
    (hmin : ∀ x ∈ s.heap, ∀ u, lookupA s.store x = some u → cmp time u.time = true) :
    (∃ s', enqueue_timer cmp s time tk = some (s', true))
      ∧ (∀ s' b, enqueue_timer cmp s time tk = some (s', b) →
          (b = true ↔ s'.heap.head? = some s.nextId))
      ∧ (enqRets ltInt [(5, 0), (2, 1), (8, 2)]).map Prod.snd
          = some [true, true, false] := by
  refine ⟨?_, fun s' b he => enqueue_ret_iff cmp he, by decide⟩
  obtain ⟨s', b, he, _⟩ := enqueue_pres cmp s time tk hINV
  obtain ⟨h1, h2, h3, h4, h5, h6, h7, h8, h9, h10, h11⟩ := hINV
  have hfresh : s.nextId ∉ s.heap := fun hc =>
    absurd (h11 s.nextId (h3 s.nextId hc)) (by omega)
  have hnd1 : (s.heap ++ [s.nextId]).Nodup := by
    rw [List.nodup_append]
    exact ⟨h2, List.nodup_singleton _,
      fun a ha hb => hfresh ((by simpa using hb : a = s.nextId) ▸ ha)⟩
  have hlen1 : (s.heap ++ [s.nextId]).length - 1 = s.heap.length := by
    simp
  have hin1 : (s.heap ++ [s.nextId])[(s.heap ++ [s.nextId]).length - 1]?
      = some s.nextId := by
    rw [hlen1]
    exact List.getElem?_concat_length _ _
  suffices hroot : s'.heap.head? = some s.nextId by
    have hb : b = true := (enqueue_ret_iff cmp he).mpr hroot
    exact ⟨s', hb ▸ he⟩
  simp only [enqueue_timer] at he
  cases hbk : lookupA s.timers tk with
  | none =>
    simp only [hbk] at he
    cases hupd : updA ((s.nextId, (⟨time, tk, none, none, sentinelIdx⟩ : Timer)) :: s.store)
        s.nextId (fun u => { u with heap_index := s.heap.length }) with
    | none =>
      rw [hupd] at he
      cases he
    | some st2 =>
      simp only [hupd] at he
      cases hup : up_heap cmp (s.heap ++ [s.nextId]).length st2 (s.heap ++ [s.nextId])
          ((s.heap ++ [s.nextId]).length - 1) with
      | none =>
        rw [hup] at he
        cases he
      | some pr =>
        obtain ⟨st3, h2'⟩ := pr
        simp only [hup] at he
        cases he
        show h2'.head? = some s.nextId
        have hl2 : ∀ y, lookupA st2 y
            = if y = s.nextId
              then some (⟨time, tk, none, none, s.heap.length⟩ : Timer)
              else lookupA s.store y := by
          intro y
          rw [lookupA_updA hupd y]
          by_cases hy : y = s.nextId
          · rw [if_pos hy, if_pos hy, lookupA_cons, if_pos rfl]
            rfl
          · rw [if_neg hy, if_neg hy, lookupA_cons, if_neg (fun hc => hy hc.symm)]
        have htn1 : lookupA st2 s.nextId
            = some (⟨time, tk, none, none, s.heap.length⟩ : Timer) := by
          rw [hl2, if_pos rfl]
        have hmin1 : ∀ x ∈ s.heap ++ [s.nextId], x ≠ s.nextId →
            ∃ u, lookupA st2 x = some u
              ∧ cmp (⟨time, tk, none, none, s.heap.length⟩ : Timer).time u.time
                  = true := by
          intro x hx hxn
          have hxh : x ∈ s.heap := by
            rcases List.mem_append.mp hx with hh | hh
            · exact hh
            · exact absurd (by simpa using hh) hxn
          obtain ⟨u, hu⟩ := Option.isSome_iff_exists.mp
            ((lookupA_isSome_iff _ _).mpr (h3 x hxh))
          refine ⟨u, ?_, hmin x hxh u hu⟩
          rw [hl2, if_neg hxn]
          exact hu
        rw [List.head?_eq_getElem?]
        exact up_heap_min_root cmp _ st2 _ _ st3 h2' s.nextId _ hnd1 hin1 htn1 hmin1 hup
  | some head =>
    simp only [hbk] at he
    cases hupdh : updA s.store head (fun u => { u with prev := some s.nextId }) with
    | none =>
      rw [hupdh] at he
      cases he
    | some st1 =>
      simp only [hupdh] at he
      cases hupd : updA ((s.nextId,
          ({ time := time, token := tk, next := some head, prev := none,
             heap_index := sentinelIdx } : Timer)) :: st1)
          s.nextId (fun u => { u with heap_index := s.heap.length }) with
      | none =>
        rw [hupd] at he
        cases he
      | some st2 =>
        simp only [hupd] at he
        cases hup : up_heap cmp (s.heap ++ [s.nextId]).length st2 (s.heap ++ [s.nextId])
            ((s.heap ++ [s.nextId]).length - 1) with
        | none =>
          rw [hup] at he
          cases he
        | some pr =>
          obtain ⟨st3, h2'⟩ := pr
          simp only [hup] at he
          cases he
          show h2'.head? = some s.nextId
          have hl1 : ∀ y, lookupA st1 y
              = if y = head then (lookupA s.store head).map
                  (fun u => { u with prev := some s.nextId })
                else lookupA s.store y := fun y => lookupA_updA hupdh y
          have hl2 : ∀ y, lookupA st2 y
              = if y = s.nextId
                then some (⟨time, tk, some head, none, s.heap.length⟩ : Timer)
                else lookupA st1 y := by
            intro y
            rw [lookupA_updA hupd y]
            by_cases hy : y = s.nextId
            · rw [if_pos hy, if_pos hy, lookupA_cons, if_pos rfl]
              rfl
            · rw [if_neg hy, if_neg hy, lookupA_cons, if_neg (fun hc => hy hc.symm)]
          have htn1 : lookupA st2 s.nextId
              = some (⟨time, tk, some head, none, s.heap.length⟩ : Timer) := by
            rw [hl2, if_pos rfl]
          have hmin1 : ∀ x ∈ s.heap ++ [s.nextId], x ≠ s.nextId →
              ∃ u, lookupA st2 x = some u
                ∧ cmp (⟨time, tk, some head, none, s.heap.length⟩ : Timer).time u.time
                    = true := by
            intro x hx hxn
            have hxh : x ∈ s.heap := by
              rcases List.mem_append.mp hx with hh | hh
              · exact hh
              · exact absurd (by simpa using hh) hxn
            obtain ⟨u, hu⟩ := Option.isSome_iff_exists.mp
              ((lookupA_isSome_iff _ _).mpr (h3 x hxh))
            have hcmpu := hmin x hxh u hu
            rw [hl2, if_neg hxn, hl1]
            by_cases hxhd : x = head
            · rw [if_pos hxhd]
              rw [hxhd] at hu
              rw [hu]
              exact ⟨{ u with prev := some s.nextId }, rfl, hcmpu⟩
            · rw [if_neg hxhd]
              exact ⟨u, hu, hcmpu⟩
          rw [List.head?_eq_getElem?]
          exact up_heap_min_root cmp _ st2 _ _ st3 h2' s.nextId _ hnd1 hin1 htn1 hmin1 hup

theorem dispatchLoopEx_throw (cmp : Int → Int → Bool) (throws : Nat → Bool) :
    ∀ (fuel : Nat) (s : QState) (now : Int) (s1 : QState) (tid : Nat), INV s →
      dispatchLoopEx cmp throws fuel s now = some (s1, some tid) →
      throws tid = true
        ∧ tid ∈ storeKeys s1
        ∧ tid ∉ s1.heap
        ∧ (∀ tk v, lookupA s1.timers tk = some v →
            tid ∉ chainD s1.store s1.store.length (some v))
        ∧ ∃ tm, s1.events.getLast? = some (Ev.fire tid tm) ∧ cmp tm now = true := by
  intro fuel
  induction fuel with
  | zero =>
    intro s now s1 tid _ he
    simp [dispatchLoopEx] at he
  | succ fuel ih =>
    intro s now s1 tid hINV he
    simp only [dispatchLoopEx] at he
    cases hhd : s.heap.head? with
    | none =>
      rw [hhd] at he
      cases he
    | some rootId =>
      simp only [hhd] at he
      cases hlk : lookupA s.store rootId with
      | none =>
        rw [hlk] at he
        cases he
      | some t =>
        simp only [hlk] at he
        by_cases hcmp : cmp t.time now = true
        · rw [if_pos hcmp] at he
          cases hrm : remove_timer cmp s rootId with
          | none =>
            rw [hrm] at he
            cases he
          | some s1' =>
            simp only [hrm] at he
            by_cases hth : throws rootId = true
            · rw [if_pos hth] at he
              have hp := Option.some_inj.mp he
              have hs1 : s1
                  = { s1' with events := s1'.events ++ [Ev.fire rootId t.time] } :=
                (congrArg Prod.fst hp).symm
              have htid : tid = rootId := by
                have hq := congrArg Prod.snd hp
                simpa using hq.symm
              obtain ⟨r1, r2, r3, r4, r5, r6, r7, r8, r9, r10, r11, r12, r13⟩ :=
                remove_spec cmp hINV hlk hrm
              subst htid
              subst hs1
              refine ⟨hth, ?_, ?_, ?_, ?_⟩
              · show tid ∈ s1'.store.map Prod.fst
                rw [r3]
                exact (lookupA_isSome_iff _ _).mp (by rw [hlk]; rfl)
              · show tid ∉ s1'.heap
                intro hc
                exact ((r7 tid).mp hc).2 rfl
              · intro tk v hv
                have hv' : lookupA s1'.timers tk = some v := hv
                have hpair : (tk, v) ∈ s1'.timers := lookupA_mem hv'
                obtain ⟨hne', hhd', hlk'⟩ := r11 _ hpair
                have hndL : ((spine s tk).erase tid).Nodup :=
                  (INV_spine_nodup hINV tk).erase _
                have hsub : (spine s tk).erase tid ⊆ storeKeys s := by
                  intro x hx
                  have hxs : x ∈ spine s tk := List.mem_of_mem_erase hx
                  obtain ⟨u, hu, _⟩ := mem_spine_live hxs
                  exact (lookupA_isSome_iff _ _).mp (by rw [hu]; rfl)
                have hlenL : ((spine s tk).erase tid).length ≤ s1'.store.length := by
                  have h1 := (List.subperm_of_subset hndL hsub).length_le
                  have h2 : (storeKeys s).length = s.store.length := by
                    unfold storeKeys
                    exact List.length_map _ _
                  have h3' : s1'.store.length = s.store.length := by
                    have := congrArg List.length r3
                    simpa using this
                  omega
                have hch : chainD s1'.store s1'.store.length
                    ((spine s tk).erase tid).head? = (spine s tk).erase tid :=
                  chainD_of_linked _ none _ hlk' hlenL
                show tid ∉ chainD s1'.store s1'.store.length (some v)
                rw [← hhd', hch]
                intro hc
                exact (((INV_spine_nodup hINV tk).mem_erase_iff).mp hc).1 rfl
              · refine ⟨t.time, ?_, hcmp⟩
                show (s1'.events ++ [Ev.fire tid t.time]).getLast? = some (Ev.fire tid t.time)
                exact List.getLast?_concat _
            · rw [if_neg hth] at he
              have he' : dispatchLoopEx cmp throws fuel
                  (fireAndDelete s1' rootId t.time) now = some (s1, some tid) := he
              obtain ⟨hINV2, _⟩ :=
                remove_delete_INV cmp hINV hlk hrm (Ev.fire rootId t.time) rfl rfl
                  (show fireAndDelete s1' rootId t.time
                    = { s1' with events := s1'.events ++ [Ev.fire rootId t.time],
                                 store := eraseA s1'.store rootId } from rfl)
              exact ih (fireAndDelete s1' rootId t.time) now s1 tid hINV2 he'
        · rw [if_neg hcmp] at he
          cases he

/-- C7 (corrected): when a handler invoked by `dispatch_timers` throws,
the entry has indeed been fully removed from the heap and from every
token chain before `do_operation` runs, and the error propagates to the
caller unswallowed — but the entry is NOT destroyed: the `delete` on
source line 92 is skipped, so the thrown-from entry stays allocated in
the store (it leaks), refuting the claim's "nevertheless destroyed"
part (see `claim7_counterexample`). -/
theorem claim7_amended (cmp : Int → Int → Bool) (throws : Nat → Bool) (s : QState)
    (now : Int) (s1 : QState) (tid : Nat) (hINV : INV s)
    (he : dispatch_timers_ex cmp throws s now = some (s1, some tid)) :
    throws tid = true
      ∧ tid ∈ storeKeys s1
      ∧ tid ∉ s1.heap
      ∧ (∀ tk v, lookupA s1.timers tk = some v →
          tid ∉ chainD s1.store s1.store.length (some v))
      ∧ ∃ tm, s1.events.getLast? = some (Ev.fire tid tm) ∧ cmp tm now = true := by
  rw [dispatch_timers_ex] at he
  exact dispatchLoopEx_throw cmp throws _ s now s1 tid hINV he

/-- Witness for C2 (amended): the one-entry queue dispatched at
`now = 10`. -/
theorem claim2_amended_witness :
    INV oneTimerQ
      ∧ (INV oneTimerFiredQ ∧ ∃ fired : List (Nat × Int),
          oneTimerFiredQ.events = oneTimerQ.events
              ++ fired.map (fun p => Ev.fire p.1 p.2)
            ∧ (∀ p ∈ fired, ltInt p.2 10 = true ∧ p.1 ∈ oneTimerQ.heap
                ∧ (lookupA oneTimerQ.store p.1).map Timer.time = some p.2)
            ∧ (∀ x, x ∈ oneTimerFiredQ.heap ↔ x ∈ oneTimerQ.heap
                ∧ x ∉ fired.map Prod.fst)
            ∧ (∀ x, x ∉ fired.map Prod.fst →
                (lookupA oneTimerFiredQ.store x).map Timer.time
                  = (lookupA oneTimerQ.store x).map Timer.time)) :=
  ⟨by decide, claim2_amended_fires_only_due ltInt oneTimerQ 10 oneTimerFiredQ
    (by decide) rfl⟩

/-- Witness for C3 at a concrete input: the run `[enqueue 5, dispatch 10]`
and entry id 0. -/
theorem claim3_witness :
    termCount oneTimerFiredQ.events 0 ≤ 1
      ∧ termCount oneTimerFiredQ.events 0
          = fireCount oneTimerFiredQ.events 0 + cancCount oneTimerFiredQ.events 0
      ∧ ¬(0 < fireCount oneTimerFiredQ.events 0
          ∧ 0 < cancCount oneTimerFiredQ.events 0)
      ∧ (0 < termCount oneTimerFiredQ.events 0 →
          lookupA oneTimerFiredQ.store 0 = none ∧ 0 ∉ oneTimerFiredQ.heap
            ∧ ∀ tk, 0 ∉ spine oneTimerFiredQ tk)
      ∧ (termCount oneTimerFiredQ.events 0 = 0 ∧ 0 < oneTimerFiredQ.nextId
          ↔ 0 ∈ storeKeys oneTimerFiredQ) :=
  claim3_exactly_once ltInt [Op.enq 5 0, Op.dispatch 10] oneTimerFiredQ 0 rfl

/-- Witness for C4 (amended): enqueueing deadline 2 into the empty queue
(vacuously below every pending deadline) returns `true`. -/
theorem claim4_amended_witness :
    (∃ s', enqueue_timer ltInt initQ 2 1 = some (s', true))
      ∧ (∀ s' b, enqueue_timer ltInt initQ 2 1 = some (s', b) →
          (b = true ↔ s'.heap.head? = some initQ.nextId))
      ∧ (enqRets ltInt [(5, 0), (2, 1), (8, 2)]).map Prod.snd
          = some [true, true, false] :=
  claim4_amended ltInt initQ 2 1 (by decide)
    (by
      intro x hx
      exact absurd hx (by simp [initQ]))

/-- Witness for C6: cancelling token 7 on the two-entry chain cancels
both, most recently inserted first. -/
theorem claim6_witness :
    twoTokenCancelledQ.events = twoTokenQ.events
        ++ (spine twoTokenQ 7).map
            (fun id => Ev.canc id (((lookupA twoTokenQ.store id).map Timer.time).getD 0))
      ∧ (∀ x, x ∈ storeKeys twoTokenCancelledQ ↔ x ∈ storeKeys twoTokenQ
          ∧ x ∉ spine twoTokenQ 7)
      ∧ (∀ x, x ∈ twoTokenCancelledQ.heap ↔ x ∈ twoTokenQ.heap
          ∧ x ∉ spine twoTokenQ 7)
      ∧ spine twoTokenCancelledQ 7 = []
      ∧ 7 ∉ twoTokenCancelledQ.timers.map Prod.fst
      ∧ (lookupA twoTokenQ.timers 7 = none → twoTokenCancelledQ = twoTokenQ) :=
  claim6_cancel ltInt twoTokenQ 7 twoTokenCancelledQ (by decide) rfl

/-- Witness for C7 (corrected): the single entry's handler throws during
dispatch; the entry is out of heap and chains yet still allocated. -/
theorem claim7_amended_witness :
    (fun i => i == 0) 0 = true
      ∧ 0 ∈ storeKeys oneTimerLeakQ
      ∧ 0 ∉ oneTimerLeakQ.heap
      ∧ (∀ tk v, lookupA oneTimerLeakQ.timers tk = some v →
          0 ∉ chainD oneTimerLeakQ.store oneTimerLeakQ.store.length (some v))
      ∧ ∃ tm, oneTimerLeakQ.events.getLast? = some (Ev.fire 0 tm)
          ∧ ltInt tm 9 = true :=
  claim7_amended ltInt (fun i => i == 0) oneTimerQ 9 oneTimerLeakQ 0 (by decide) rfl

/-- Witness for C8: the single live entry of `oneTimerQ`. -/
theorem claim8_witness :
    oneTimerQ.heap.count 0 = 1
      ∧ oneTimerQ.heap[(⟨5, 0, none, none, 0⟩ : Timer).heap_index]? = some 0
      ∧ (∀ tk, 0 ∈ spine oneTimerQ tk ↔ tk = (⟨5, 0, none, none, 0⟩ : Timer).token)
      ∧ (spine oneTimerQ (⟨5, 0, none, none, 0⟩ : Timer).token).count 0 = 1 :=
  claim8_cache_and_uniqueness ltInt [Op.enq 5 0] oneTimerQ 0 ⟨5, 0, none, none, 0⟩
    rfl rfl
